import Mathlib

/-!
Verification development for the licensing-assistant repository.

The repository ships a React frontend (TypeScript, under frontend/) and a
Flask backend whose matching/parsing services are described in detail by the
repository documentation (docs/rules-loader-and-matching.md, spec).  The
backend Python modules themselves are not part of the distributed sources, so
the backend behaviour is modelled here from the specification text; the
frontend helpers are embedded directly from their TypeScript sources.

All numerics use ℚ (the code uses Python floats for scores such as 0.3, 0.4;
the scoring arithmetic is exact decimal arithmetic, faithfully represented by
rationals).
-/

namespace LicensingAssistant

/-! ### Basic character-list utilities used across the embedding -/

/-- Does the pattern occur at the head of the text? -/
def listStartsWith : List Char → List Char → Bool
  | [], _ => true
  | _ :: _, [] => false
  | p :: ps, c :: cs => p = c && listStartsWith ps cs

/-- Does the pattern occur anywhere inside the text (substring search)? -/
def listContains (pat : List Char) : List Char → Bool
  | [] => listStartsWith pat []
  | c :: cs => listStartsWith pat (c :: cs) || listContains pat cs

/-- Substring containment on strings. -/
def strContains (text pat : String) : Bool :=
  listContains pat.toList text.toList

/-! ### Data model

Modelled from the spec: `NumericRange` — extracted applicability bounds for
one dimension (size or occupancy) of one paragraph's text, with attributes
`min` (float or None), `max` (float or None), `exact` (list of floats). -/

structure NumericRange where
  min : Option ℚ
  max : Option ℚ
  exact : List ℚ
deriving Repr, DecidableEq

/-- Modelled from the spec: the per-paragraph result of numeric-range
extraction, one optional `NumericRange` per dimension (`size_m2`,
`occupancy`); a dimension with no detected constraint is absent. -/
structure ParagraphRanges where
  size_m2 : Option NumericRange
  occupancy : Option NumericRange
deriving Repr, DecidableEq

/-- Modelled from the spec: `BusinessProfile` — normalized user input with
optional `size_m2`, optional `seats`, and the set of selected feature
names (`attributes`). -/
structure UserProfile where
  size_m2 : Option ℚ
  seats : Option ℚ
  attributes : List String
deriving Repr, DecidableEq

/-- Fixed small tolerance used for `exact`-value proximity checks. -/
def exactTolerance : ℚ := 5

/-- Modelled from the spec: a profile value violates a declared numeric
range when it falls below a declared `min`, above a declared `max`, or —
when `exact` values are declared — is not within the fixed tolerance of any
of them. -/
def violatesRange (v : ℚ) (r : NumericRange) : Bool :=
  (match r.min with | some m => decide (v < m) | none => false) ||
  (match r.max with | some m => decide (m < v) | none => false) ||
  (!r.exact.isEmpty && r.exact.all fun e => decide (exactTolerance < |v - e|))

/-- Modelled from the spec: one dimension of the numeric filter.  A paragraph
with no declared constraint on the dimension, or a profile missing the
dimension, passes; otherwise the profile value is checked against the
declared range. -/
def dimensionOk (pv : Option ℚ) (pr : Option NumericRange) : Bool :=
  match pr, pv with
  | none, _ => true
  | some _, none => true
  | some r, some v => !violatesRange v r

/-- Modelled from the spec: `_matches_numeric_requirements` — the hard
numeric filter of the matching engine, the conjunction of the size dimension
check and the occupancy dimension check. -/
def matchesNumericRequirements (p : UserProfile) (r : ParagraphRanges) : Bool :=
  dimensionOk p.size_m2 r.size_m2 && dimensionOk p.seats r.occupancy

/-! ### Relevance scoring -/

/-- Modelled from the spec: does the profile value satisfy the declared
min/max bounds of a range (used for the +0.4 bonus)? The bonus applies only
when at least one of min/max is actually declared. -/
def satisfiesMinMax (v : ℚ) (r : NumericRange) : Bool :=
  (r.min.isSome || r.max.isSome) &&
  (match r.min with | some m => decide (m ≤ v) | none => true) &&
  (match r.max with | some m => decide (v ≤ m) | none => true)

/-- Modelled from the spec: is the profile value within the fixed tolerance
of one of the declared `exact` values (used for the +0.3 bonus)? -/
def nearExact (v : ℚ) (r : NumericRange) : Bool :=
  r.exact.any fun e => decide (|v - e| ≤ exactTolerance)

/-- Modelled from the spec: the per-dimension scoring factor — +0.4 when the
paragraph declares a min/max the profile satisfies, else +0.3 when the
profile value is within tolerance of an `exact` value, else 0. -/
def dimensionBonus (pv : Option ℚ) (pr : Option NumericRange) : ℚ :=
  match pr, pv with
  | some r, some v =>
    if satisfiesMinMax v r then 2/5
    else if nearExact v r then 3/10
    else 0
  | _, _ => 0

/-- The fixed bilingual high-priority safety term list. -/
def safetyTerms : List String := ["חירום", "בטיחות", "כיבוי", "emergency", "safety"]

/-- Modelled from the spec: +0.3 when the paragraph text contains a
high-priority safety/emergency term. -/
def safetyBonus (text : String) : ℚ :=
  if safetyTerms.any (fun t => strContains text t) then 3/10 else 0

/-- Modelled from the spec: `_assess_requirement_relevance` — relevance
starts at the 0.3 base; adds the size-dimension bonus, the
occupancy-dimension bonus, +0.2 per additional matched dynamic feature
keyword (`nFeatures` of them), and the safety bonus; a ×0.2 multiplicative
penalty applies when the paragraph declares a numeric constraint conflicting
with profile data; the result is capped at 1.0. -/
def assessRequirementRelevance (text : String) (p : UserProfile)
    (r : ParagraphRanges) (nFeatures : ℕ) : ℚ :=
  let raw : ℚ := 3/10 + dimensionBonus p.size_m2 r.size_m2
      + dimensionBonus p.seats r.occupancy
      + (nFeatures : ℚ) * (1/5) + safetyBonus text
  let penalized : ℚ := if matchesNumericRequirements p r then raw else raw * (1/5)
  min penalized 1

/-! ### Threshold, ranking and priorities -/

/-- A candidate paragraph that survived filtering, carrying its score. -/
structure ScoredCandidate where
  category : String
  paragraph_number : String
  text : String
  relevance_score : ℚ
deriving Repr, DecidableEq

/-- One entry of `matched_requirements`: a scored match with its priority. -/
structure MatchEntry where
  category : String
  paragraph_number : String
  text : String
  relevance_score : ℚ
  priority : String
deriving Repr, DecidableEq

/-- Modelled from the spec: priority assignment — high when the score is at
least 0.8, medium when at least 0.5, low otherwise. -/
def priorityOf (s : ℚ) : String :=
  if (4/5 : ℚ) ≤ s then "high" else if (1/2 : ℚ) ≤ s then "medium" else "low"

/-- Promote a scored candidate to a result entry by assigning its priority. -/
def toMatchEntry (c : ScoredCandidate) : MatchEntry :=
  { category := c.category, paragraph_number := c.paragraph_number,
    text := c.text, relevance_score := c.relevance_score,
    priority := priorityOf c.relevance_score }

/-- Descending-score comparison used to sort matches. -/
def scoreDescends (a b : ScoredCandidate) : Bool :=
  decide (b.relevance_score ≤ a.relevance_score)

/-- The default relevance threshold of the engine. -/
def defaultMinRelevance : ℚ := 3/10

/-- Modelled from the spec: steps 7–8 of the engine — drop any candidate
with score below `minRelevance`, sort the remainder in descending score
order, and assign each a priority level. -/
def rankMatches (minRelevance : ℚ) (cands : List ScoredCandidate) : List MatchEntry :=
  ((cands.filter fun c => decide (minRelevance ≤ c.relevance_score)).mergeSort
    scoreDescends).map toMatchEntry

/-! ### Applicable features (claim C4) -/

/-- The size feature name (square metres). -/
def sizeFeatureName : String := "מ\"ר"

/-- The occupancy feature name. -/
def occupancyFeatureName : String := "תפוסה"

/-- The implicit general/safety feature group. -/
def generalSafetyFeature : String := "בטיחות"

/-- Modelled from the spec: the always-applicable features — size and
occupancy (every business has a size and an occupancy). -/
def isAlwaysApplicable (f : String) : Bool :=
  f = sizeFeatureName || f = occupancyFeatureName

/-- Modelled from the spec: `_matches_user_profile` — size and occupancy
features always apply; every other configured feature applies only if its
name is present in the profile's `attributes`. -/
def matchesUserProfile (p : UserProfile) (f : String) : Bool :=
  isAlwaysApplicable f || decide (f ∈ p.attributes)

/-- Modelled from the spec: the applicable features of a rule set for a
profile — the rule-set features passing the profile check, plus the implicit
general/safety feature group, which always applies. -/
def applicableFeatures (p : UserProfile) (ruleSet : List String) : List String :=
  ruleSet.filter (matchesUserProfile p) ++ [generalSafetyFeature]

/-! ### Rules Store (claim C5) -/

/-- An operation on the Rules Store: a `load` request or a test `reset`. -/
inductive StoreOp where
  | load : StoreOp
  | reset : StoreOp
deriving Repr, DecidableEq

/-- The Rules Store's only mutable state: the memoized artifact, if any. -/
structure StoreState (D : Type) where
  cached : Option D
deriving Repr, DecidableEq

/-- Modelled from the spec: `load_parser_data` memoized — serve from the
cache when present (no real load); otherwise perform the single real
artifact load and remember it.  Returns the new state, the served data, and
whether a real load occurred. -/
def storeLoad {D : Type} (artifact : D) (s : StoreState D) : StoreState D × D × Bool :=
  match s.cached with
  | some d => (s, d, false)
  | none => (⟨some artifact⟩, artifact, true)

/-- Modelled from the spec: the reset operation forces a re-load. -/
def storeReset {D : Type} (_ : StoreState D) : StoreState D := ⟨none⟩

/-- Number of resets in an operation trace. -/
def countResets (ops : List StoreOp) : ℕ :=
  ops.count StoreOp.reset

/-- Run a trace of store operations (callers' `load`s, in any interleaving,
plus test `reset`s) from a state; returns the final state, the number of
real artifact loads performed, and the list of results served to callers. -/
def runStore {D : Type} (artifact : D) : StoreState D → List StoreOp → StoreState D × ℕ × List D
  | s, [] => (s, 0, [])
  | s, StoreOp.load :: ops =>
      let r := storeLoad artifact s
      let rest := runStore artifact r.1 ops
      (rest.1, (if r.2.2 then 1 else 0) + rest.2.1, r.2.1 :: rest.2.2)
  | s, StoreOp.reset :: ops => runStore artifact (storeReset s) ops

/-! ### Tokenization utilities (kernel-reducible, used by the range
extractor and the parsers) -/

/-- Split a character list at every occurrence of the separator. -/
def splitOnChar (sep : Char) : List Char → List (List Char)
  | [] => [[]]
  | c :: cs =>
    let r := splitOnChar sep cs
    if c = sep then [] :: r
    else
      match r with
      | [] => [[c]]
      | t :: ts => (c :: t) :: ts

/-- Whitespace tokenization: split on spaces, dropping empty tokens. -/
def tokenize (text : String) : List (List Char) :=
  (splitOnChar ' ' text.toList).filter fun t => !t.isEmpty

/-- Accumulate the value of a digit string. -/
def digitsVal : List Char → ℕ → ℕ
  | [], acc => acc
  | c :: cs, acc => digitsVal cs (acc * 10 + (c.toNat - 48))

/-- Parse a nonempty all-digit token as a natural number. -/
def charsToNat? (cs : List Char) : Option ℕ :=
  if !cs.isEmpty && cs.all (fun c => c.isDigit) then some (digitsVal cs 0) else none

/-- Parse a numeric token as a rational. -/
def parseNum (tok : List Char) : Option ℚ :=
  (charsToNat? tok).map fun n => (n : ℚ)

/-- Parse a token of the form `ל-Y` (the upper bound of a Hebrew range
phrase). -/
def parseToNum (tok : List Char) : Option ℚ :=
  match tok with
  | 'ל' :: '-' :: rest => parseNum rest
  | _ => none

/-- Parse a token of the form `מ-X` (the bound of `לא יותר מ-X`). -/
def parseFromNum (tok : List Char) : Option ℚ :=
  match tok with
  | 'מ' :: '-' :: rest => parseNum rest
  | _ => none

/-! ### Numeric-range extraction (engine step 4) -/

/-- The two constrained dimensions of a paragraph. -/
inductive Dimension where
  | size : Dimension
  | occupancy : Dimension
deriving Repr, DecidableEq

/-- Modelled from the spec: a unit word selects the dimension — `מ"ר` for
size, `איש`/`מקומות` for occupancy. -/
def unitDim (tok : List Char) : Option Dimension :=
  if tok = "מ\"ר".toList then some Dimension.size
  else if tok = "איש".toList || tok = "מקומות".toList then some Dimension.occupancy
  else none

/-- A range with no bounds. -/
def emptyRange : NumericRange := ⟨none, none, []⟩

/-- Read one dimension of the extraction accumulator. -/
def getDim (r : ParagraphRanges) : Dimension → Option NumericRange
  | Dimension.size => r.size_m2
  | Dimension.occupancy => r.occupancy

/-- Write one dimension of the extraction accumulator. -/
def setDim (r : ParagraphRanges) : Dimension → NumericRange → ParagraphRanges
  | Dimension.size, nr => { r with size_m2 := some nr }
  | Dimension.occupancy, nr => { r with occupancy := some nr }

/-- Update one dimension of the accumulator (creating it if absent). -/
def updDim (r : ParagraphRanges) (d : Dimension) (f : NumericRange → NumericRange) :
    ParagraphRanges :=
  setDim r d (f ((getDim r d).getD emptyRange))

/-- Record a lower bound. -/
def withMin (q : ℚ) (nr : NumericRange) : NumericRange := { nr with min := some q }

/-- Record an upper bound. -/
def withMax (q : ℚ) (nr : NumericRange) : NumericRange := { nr with max := some q }

/-- Record an exact value. -/
def addExact (q : ℚ) (nr : NumericRange) : NumericRange :=
  { nr with exact := nr.exact ++ [q] }

/-- Is this token one of the Hebrew bound markers that precede a number? -/
def isBoundMarker (p : List Char) : Bool :=
  p = "בין".toList || p = "מעל".toList || p = "לפחות".toList || p = "עד".toList

/-- Modelled from the spec: the contribution of the pattern family anchored
at one token, given its predecessor and its lookahead — ranges
(`בין X ל-Y`), minimums (`מעל X`, `לפחות X`), maximums (`עד X`,
`לא יותר מ-X`) and bare exact values (`X מ"ר`), each followed by a unit word
selecting the dimension. -/
def rangeTokenUpdate (prev : Option (List Char)) (t : List Char)
    (rest : List (List Char)) (acc : ParagraphRanges) : ParagraphRanges :=
  if t = "בין".toList then
    match rest with
    | x :: y :: u :: _ =>
      match parseNum x, parseToNum y, unitDim u with
      | some a, some b, some d => updDim (updDim acc d (withMin a)) d (withMax b)
      | _, _, _ => acc
    | _ => acc
  else if t = "מעל".toList || t = "לפחות".toList then
    match rest with
    | x :: u :: _ =>
      match parseNum x, unitDim u with
      | some a, some d => updDim acc d (withMin a)
      | _, _ => acc
    | _ => acc
  else if t = "עד".toList then
    match rest with
    | x :: u :: _ =>
      match parseNum x, unitDim u with
      | some a, some d => updDim acc d (withMax a)
      | _, _ => acc
    | _ => acc
  else if t = "יותר".toList then
    match rest with
    | y :: u :: _ =>
      match parseFromNum y, unitDim u with
      | some a, some d => updDim acc d (withMax a)
      | _, _ => acc
    | _ => acc
  else if (prev.map isBoundMarker).getD false then acc
  else
    match rest with
    | u :: _ =>
      match parseNum t, unitDim u with
      | some a, some d => updDim acc d (addExact a)
      | _, _ => acc
    | _ => acc

/-- Modelled from the spec: scan the token stream, matching every pattern
family independently at every position; multiple matches accumulate. -/
def scanTokens (prev : Option (List Char)) :
    List (List Char) → ParagraphRanges → ParagraphRanges
  | [], acc => acc
  | t :: rest, acc => scanTokens (some t) rest (rangeTokenUpdate prev t rest acc)

/-- Modelled from the spec: `_extract_numeric_ranges` — extract the numeric
constraints declared by a paragraph's text, one optional range per
dimension. -/
def extractNumericRanges (text : String) : ParagraphRanges :=
  scanTokens none (tokenize text) ⟨none, none⟩

/-! ### Generated artifacts, Rules Store loading and the full engine
(claim C6) -/

/-- A minimal JSON value model for the two generated artifacts. -/
inductive Json where
  | str : String → Json
  | arr : List Json → Json
  | obj : List (String × Json) → Json

/-- Field lookup in a JSON object's field list. -/
def jsonLookup : List (String × Json) → String → Option Json
  | [], _ => none
  | (k, v) :: fs, key => if k = key then some v else jsonLookup fs key

/-- Is this JSON value an object? -/
def Json.isObj : Json → Bool
  | .obj _ => true
  | _ => false

/-- Modelled from the spec: the structural validity check on a generated
artifact — the expected nested-mapping shape, an object whose top-level
values are again objects. -/
def validArtifactShape : Json → Bool
  | .obj fs => fs.all fun kv => kv.2.isObj
  | _ => false

/-- The serving-time error taxonomy relevant to the Rules Store. -/
inductive DataError where
  | dataUnavailable : DataError
deriving Repr, DecidableEq

/-- Modelled from the spec: `load_parser_data` — fails with
`DataUnavailableError` when either artifact is absent or structurally
invalid, and otherwise returns the pair (paragraph tree, feature mapping). -/
def loadParserData (praw mraw : Option Json) : Except DataError (Json × Json) :=
  match praw, mraw with
  | some t, some m =>
    if validArtifactShape t && validArtifactShape m then Except.ok (t, m)
    else Except.error DataError.dataUnavailable
  | _, _ => Except.error DataError.dataUnavailable

/-- The chain of tree keys visited for a dotted paragraph number (each key
extends the previous by one dotted segment). -/
def cumulativeKeysAux (acc : List Char) : List (List Char) → List (List Char)
  | [] => [acc]
  | s :: rest => acc :: cumulativeKeysAux (acc ++ '.' :: s) rest

/-- The lookup path of a dotted paragraph number inside its category
subtree. -/
def pathKeys (number : String) : List (List Char) :=
  match splitOnChar '.' number.toList with
  | [] => []
  | s :: rest => cumulativeKeysAux s rest

/-- Walk a nested paragraph subtree along a key path. -/
def findParaNode : Json → List (List Char) → Option Json
  | node, [] => some node
  | node, k :: ks =>
    match node with
    | .obj fs =>
      match jsonLookup fs (String.mk k) with
      | some child => findParaNode child ks
      | none => none
    | _ => none

/-- Modelled from the spec: `get_paragraph_text` — resolve a category and a
dotted paragraph number to the paragraph's text (empty when absent). -/
def getParagraphText (tree : Json) (cat number : String) : String :=
  match tree with
  | .obj cats =>
    match jsonLookup cats cat with
    | some catNode =>
      match findParaNode catNode (pathKeys number) with
      | some (.obj fs) =>
        match jsonLookup fs "text" with
        | some (.str t) => t
        | _ => ""
      | _ => ""
    | none => ""
  | _ => ""

/-- The strings of a JSON array (non-strings skipped). -/
def jsonStrings : Json → List String
  | .arr es => es.filterMap fun e =>
      match e with
      | .str s => some s
      | _ => none
  | _ => []

/-- Modelled from the spec: the (category, paragraph number) pairs that the
feature mapping assigns to one feature. -/
def candidatesFor (mappings : Json) (feature : String) : List (String × String) :=
  match mappings with
  | .obj feats =>
    match jsonLookup feats feature with
    | some (.obj fm) =>
      match jsonLookup fm "categories" with
      | some (.obj catfields) =>
        (catfields.map fun kv => (jsonStrings kv.2).map fun n => (kv.1, n)).flatten
      | _ => []
    | _ => []
  | _ => []

/-- Modelled from the spec: step 3 of the engine — the union of the
paragraphs mapped to every applicable feature. -/
def collectCandidates (mappings : Json) (feats : List String) : List (String × String) :=
  ((feats.map (candidatesFor mappings)).flatten).eraseDups

/-- Modelled from the spec: the number of additional dynamically-configured
features (beyond size/occupancy) that are applicable and have a keyword
matching the text. -/
def countDynamicFeatureMatches (ruleSet : List (String × List String))
    (applicable : List String) (text : String) : ℕ :=
  (ruleSet.filter fun r =>
    decide (r.1 ∈ applicable) && !isAlwaysApplicable r.1 &&
      r.2.any fun kw => strContains text kw).length

/-- Modelled from the spec: steps 4–6 of the engine for one candidate —
extract its numeric ranges, apply the hard numeric filter, and score the
survivors. -/
def scoreCandidate (tree : Json) (ruleSet : List (String × List String))
    (feats : List String) (ans : UserProfile) (cn : String × String) :
    Option ScoredCandidate :=
  let text := getParagraphText tree cn.1 cn.2
  let ranges := extractNumericRanges text
  if matchesNumericRequirements ans ranges then
    some { category := cn.1, paragraph_number := cn.2, text := text,
           relevance_score := assessRequirementRelevance text ans ranges
             (countDynamicFeatureMatches ruleSet feats text) }
  else none

/-- The engine's aggregate response payload. -/
structure MatchOutput where
  matched_requirements : List MatchEntry
  total_matches : ℕ
  feature_coverage : List String
  priority_high : ℕ
  priority_medium : ℕ
  priority_low : ℕ
  avg_relevance : ℚ
deriving Repr, DecidableEq

/-- Sum of the relevance scores of a match list. -/
def sumScores (l : List MatchEntry) : ℚ :=
  (l.map fun m => m.relevance_score).sum

/-- Modelled from the spec: `match_requirements` on loaded data — normalize,
determine applicable features, collect candidates, extract and filter by
numeric ranges, score, threshold, rank, and aggregate statistics. -/
def matchRequirementsData (tree mappings : Json)
    (ruleSet : List (String × List String)) (ans : UserProfile)
    (minRel : ℚ) : MatchOutput :=
  let feats := applicableFeatures ans (ruleSet.map Prod.fst)
  let cands := collectCandidates mappings feats
  let scored := cands.filterMap (scoreCandidate tree ruleSet feats ans)
  let ranked := rankMatches minRel scored
  { matched_requirements := ranked
    total_matches := ranked.length
    feature_coverage := feats
    priority_high := (ranked.filter fun m => m.priority = "high").length
    priority_medium := (ranked.filter fun m => m.priority = "medium").length
    priority_low := (ranked.filter fun m => m.priority = "low").length
    avg_relevance :=
      if ranked.length = 0 then 0 else sumScores ranked / (ranked.length : ℚ) }

/-- Modelled from the spec: the serving-time entry point — a matching
request first depends on the Rules Store; a failed load is fatal for the
request, and a successful load always yields a (possibly empty) result. -/
def matchRequirements (store : Except DataError (Json × Json))
    (ruleSet : List (String × List String)) (ans : UserProfile)
    (minRel : ℚ) : Except DataError MatchOutput :=
  match store with
  | Except.error e => Except.error e
  | Except.ok tm => Except.ok (matchRequirementsData tm.1 tm.2 ruleSet ans minRel)

/-- The one-paragraph artifact pair used by the concrete engine checks. -/
def witnessTree : Json :=
  Json.obj [("cat", Json.obj [("5", Json.obj [("text", Json.str "בטיחות")])])]

/-- The feature mapping pairing the safety feature with that paragraph. -/
def witnessMappings : Json :=
  Json.obj [("בטיחות", Json.obj [("categories",
    Json.obj [("cat", Json.arr [Json.str "5"])])])]

/-- The empty business profile used by the concrete engine checks. -/
def witnessProfile : UserProfile := ⟨none, none, []⟩

/-- The scored candidate the engine derives from the witness artifacts. -/
def witnessCandidate : ScoredCandidate :=
  { category := "cat", paragraph_number := "5", text := "בטיחות",
    relevance_score := assessRequirementRelevance "בטיחות" witnessProfile ⟨none, none⟩ 0 }

/-- The match entry the engine produces for the witness artifacts. -/
def witnessEntry : MatchEntry := toMatchEntry witnessCandidate

/-! ### Frontend API helper (claim C9) — embedded from the fetch helper in
frontend/src/api.ts: a module-level cache map keyed by full URL; a hit
returns the cached value without fetching; a miss fetches, throws on a
non-ok response without caching, and caches the parsed body on success. -/

/-- The backend base URL of the frontend helper. -/
def API_BASE : String := "http://localhost:5000/api"

/-- A fetch response: ok flag, HTTP status, and the parsed body. -/
structure FetchResponse (V : Type) where
  ok : Bool
  status : ℕ
  body : V
deriving Repr, DecidableEq

/-- The helper module's state: the cache map plus a count of performed
fetches. -/
structure ApiState (V : Type) where
  cache : List (String × V)
  fetchCount : ℕ
deriving Repr, DecidableEq

/-- Map lookup in the cache. -/
def lookupCache {V : Type} : List (String × V) → String → Option V
  | [], _ => none
  | (k, v) :: rest, key => if k = key then some v else lookupCache rest key

/-- The observable outcome of a `get` call: the promised value, or a thrown
HTTP error. -/
inductive GetResult (V : Type) where
  | success : V → GetResult V
  | failure : ℕ → GetResult V
deriving Repr, DecidableEq

/-- The `get` helper: build the full URL, serve a cache hit without
fetching, otherwise fetch (counted), throw on non-ok without caching, and
cache and return the body on success. -/
def get {V : Type} (fetchFn : String → FetchResponse V) (s : ApiState V)
    (path : String) : ApiState V × GetResult V :=
  let url := API_BASE ++ path
  match lookupCache s.cache url with
  | some v => (s, GetResult.success v)
  | none =>
    let res := fetchFn url
    if !res.ok then
      ({ s with fetchCount := s.fetchCount + 1 }, GetResult.failure res.status)
    else
      ({ cache := (url, res.body) :: s.cache, fetchCount := s.fetchCount + 1 },
       GetResult.success res.body)

/-! ### Frontend results display (claim C10) — embedded from
frontend/src/components/ResultsDisplay.tsx, which renders the priority
badge as a conditional on priority === high. -/

/-- The priority badge label of ResultsDisplay. -/
def priorityBadgeLabel (priority : String) : String :=
  if priority = "high" then "עדיפות גבוהה" else "עדיפות בינונית"

/-! ### Hierarchical parser: dotted headers (claim C8) -/

/-- A numeric dotted-number segment: nonempty, all digits. -/
def isNumericSegment (s : List Char) : Bool :=
  !s.isEmpty && s.all fun c => c.isDigit

/-- Render segments as a dotted number. -/
def joinDotted : List (List Char) → List Char
  | [] => []
  | [s] => s
  | s :: rest => s ++ '.' :: joinDotted rest

/-- Modelled from the spec: recognize a line matching a dotted numeral
header — a leading run of digits and dots forming 1–20 numeric segments;
other lines are body text (`none`). -/
def parseDottedHeader (line : List Char) : Option (List (List Char)) :=
  let numPart := line.takeWhile fun c => c.isDigit || c = '.'
  let segs := splitOnChar '.' numPart
  if !segs.isEmpty && decide (segs.length ≤ 20) && segs.all isNumericSegment then
    some segs
  else none

/-- Modelled from the spec: the full dotted number canonicalized to include
its chapter number as leading segment. -/
def canonicalNumber (chapter : List Char) (segs : List (List Char)) : List Char :=
  if segs.head? = some chapter then joinDotted segs
  else joinDotted (chapter :: segs)

/-- Modelled from the spec: a header at depth d closes all open paragraphs
at depth ≥ d and opens the new paragraph at depth = its segment count with
its canonical number. -/
def openParagraph (chapter : List Char) (stack : List (ℕ × List Char))
    (segs : List (List Char)) : List (ℕ × List Char) :=
  (segs.length, canonicalNumber chapter segs) ::
    stack.dropWhile fun e => segs.length ≤ e.1

/-! ### Text Normalizer (claim C7)

Modelled from the spec: `normalize` applies, in order, (1) unification of
non-breaking spaces and dash/quote variants to canonical equivalents,
(2) reflow of hyphen-broken line wraps for Hebrew letter sequences,
(3) whitespace-preserving stripping of pagination artifacts (standalone
page-number lines and dotted leader runs), and (4) repair of the missing
space between the chapter keyword and its numeral. -/

/-- Step 1 character unification: NBSP to space, dash variants to the ASCII
hyphen, double-quote variants (including the Hebrew gershayim) to the ASCII
quote. -/
def canonChar (c : Char) : Char :=
  if c = ' ' then ' '
  else if c = '–' then '-'
  else if c = '—' then '-'
  else if c = '“' then '"'
  else if c = '”' then '"'
  else if c = '״' then '"'
  else c

/-- Step 1: unify every character. -/
def unifyChars (cs : List Char) : List Char := cs.map canonChar

/-- Is this character a Hebrew letter? -/
def isHeb (c : Char) : Bool :=
  decide (0x5D0 ≤ c.toNat) && decide (c.toNat ≤ 0x5EA)

/-- Does a hyphen-broken Hebrew line wrap start here? -/
def patternAt : List Char → Bool
  | a :: b :: c :: d :: _ =>
    isHeb a && decide (b = '-') && decide (c = '\n') && isHeb d
  | _ => false

/-- Does the text contain a hyphen-broken Hebrew line wrap anywhere? -/
def hasBreak : List Char → Bool
  | [] => false
  | c :: rest => patternAt (c :: rest) || hasBreak rest

/-- Step 2: reflow hyphen-broken line wraps (`xxx-\nyyy` → `xxxyyy`) for
Hebrew letter sequences only. -/
def reflow : List Char → List Char
  | a :: b :: c :: d :: rest =>
    if isHeb a && decide (b = '-') && decide (c = '\n') && isHeb d then
      a :: reflow (d :: rest)
    else a :: reflow (b :: c :: d :: rest)
  | l => l

/-- Does a run of three leader dots start here? -/
def tripleDotAt : List Char → Bool
  | a :: b :: c :: _ => decide (a = '.') && decide (b = '.') && decide (c = '.')
  | _ => false

/-- Does the line contain a run of three leader dots anywhere? -/
def hasTripleDot : List Char → Bool
  | [] => false
  | c :: rest => tripleDotAt (c :: rest) || hasTripleDot rest

/-- Blank a dotted leader run (whitespace-preserving). -/
def deDotRun : List Char → List Char
  | a :: b :: c :: rest =>
    if decide (a = '.') && decide (b = '.') && decide (c = '.') then
      ' ' :: ' ' :: ' ' :: deDotRun rest
    else a :: deDotRun (b :: c :: rest)
  | l => l

/-- Is this line a standalone page number (nonempty, all digits)? -/
def isPageNumLine (l : List Char) : Bool :=
  !l.isEmpty && l.all fun c => c.isDigit

/-- Step 3 on one line: blank a standalone page number wholesale, and blank
dotted leader runs otherwise. -/
def stripLine (l : List Char) : List Char :=
  if isPageNumLine l then l.map fun _ => ' ' else deDotRun l

/-- Rejoin lines with newlines. -/
def joinLines : List (List Char) → List Char
  | [] => []
  | [l] => l
  | l :: rest => l ++ '\n' :: joinLines rest

/-- Step 3: strip pagination artifacts line by line. -/
def stripPagination (cs : List Char) : List Char :=
  joinLines ((splitOnChar '\n' cs).map stripLine)

/-- Does a glued chapter keyword (`פרק` directly followed by a digit) start
here? -/
def glueAt : List Char → Bool
  | a :: b :: c :: d :: _ =>
    decide (a = 'פ') && decide (b = 'ר') && decide (c = 'ק') && d.isDigit
  | _ => false

/-- Does the text contain a glued chapter keyword anywhere? -/
def hasGlue : List Char → Bool
  | [] => false
  | c :: rest => glueAt (c :: rest) || hasGlue rest

/-- Step 4: repair the missing space between the chapter keyword and its
numeral (`פרק1` → `פרק 1`). -/
def fixChapterSpace : List Char → List Char
  | a :: b :: c :: d :: rest =>
    if decide (a = 'פ') && decide (b = 'ר') && decide (c = 'ק') && d.isDigit then
      a :: b :: c :: ' ' :: fixChapterSpace (d :: rest)
    else a :: fixChapterSpace (b :: c :: d :: rest)
  | l => l

/-- Modelled from the spec: the text normalizer, steps (1)–(4) in order. -/
def normalize (text : String) : String :=
  String.mk (fixChapterSpace (stripPagination (reflow (unifyChars text.toList))))

/-! ### Idempotence of the normalizer: pointwise-whitespace lemmas

Step 3 never moves characters: it only keeps a character or overwrites it
with a space. -/

/-- The pointwise relation of step 3: each output character is the input
character or a space. -/
def spaceOut (a b : Char) : Prop := b = a ∨ b = ' '

/-! ## Theorems -/

/-! ### Theorems for the numeric filter (claim C1) -/

/-- Claim C1: In the numeric filter, a paragraph is dropped (the filter returns
`false`) exactly when some dimension (size or occupancy) has a declared
constraint, the profile has data for that dimension, and the profile's value
violates the constraint; hence a paragraph with no declared constraint on a
dimension, or a profile missing that dimension, is never dropped by this
filter. -/
theorem matchesNumericRequirements_false_iff (p : UserProfile) (r : ParagraphRanges) :
    matchesNumericRequirements p r = false ↔
      (∃ rr v, r.size_m2 = some rr ∧ p.size_m2 = some v ∧ violatesRange v rr = true) ∨
      (∃ rr v, r.occupancy = some rr ∧ p.seats = some v ∧ violatesRange v rr = true) := by
  unfold matchesNumericRequirements dimensionOk
  rcases hr : r.size_m2 with _ | rr₁ <;> rcases hp : p.size_m2 with _ | v₁ <;>
    rcases hq : r.occupancy with _ | rr₂ <;> rcases hs : p.seats with _ | v₂ <;>
      simp [Bool.and_eq_false_iff] <;>
        cases hv : violatesRange v₁ rr₁ <;> simp [hv]

/-! ### Theorems for relevance scoring (claim C2) -/

/-- The per-dimension scoring factor is nonnegative. -/
lemma dimensionBonus_nonneg (pv : Option ℚ) (pr : Option NumericRange) :
    0 ≤ dimensionBonus pv pr := by
  unfold dimensionBonus
  rcases pr with _ | r <;> rcases pv with _ | v <;> simp <;> split <;> norm_num
  split <;> norm_num

/-- The safety-term scoring factor is nonnegative. -/
lemma safetyBonus_nonneg (text : String) : 0 ≤ safetyBonus text := by
  unfold safetyBonus; split <;> norm_num

/-- The raw relevance computation is bounded: nonnegative and at most 1
after the cap. -/
lemma assessRequirementRelevance_bounds (text : String) (p : UserProfile)
    (r : ParagraphRanges) (n : ℕ) :
    0 ≤ assessRequirementRelevance text p r n ∧
      assessRequirementRelevance text p r n ≤ 1 := by
  unfold assessRequirementRelevance
  have h₁ := dimensionBonus_nonneg p.size_m2 r.size_m2
  have h₂ := dimensionBonus_nonneg p.seats r.occupancy
  have h₃ := safetyBonus_nonneg text
  have h₄ : (0:ℚ) ≤ (n : ℚ) * (1/5) := by positivity
  constructor
  · apply le_min _ (by norm_num)
    split <;> nlinarith
  · exact min_le_right _ _

/-! ### Theorems for threshold, ordering and priority (claim C3) -/

/-- The ranked output is a permutation of the above-threshold candidates
promoted to match entries. -/
lemma rankMatches_perm (minRelevance : ℚ) (cands : List ScoredCandidate) :
    (rankMatches minRelevance cands).Perm
      ((cands.filter fun c => decide (minRelevance ≤ c.relevance_score)).map
        toMatchEntry) :=
  List.Perm.map toMatchEntry (List.mergeSort_perm _ _)

/-- Characterization of the priority assignment in terms of score bands. -/
lemma priorityOf_spec (s : ℚ) :
    (priorityOf s = "high" ↔ 4/5 ≤ s) ∧
    (priorityOf s = "medium" ↔ 1/2 ≤ s ∧ s < 4/5) ∧
    (priorityOf s = "low" ↔ s < 1/2) := by
  unfold priorityOf
  rcases le_or_lt (4/5 : ℚ) s with h | h
  · rw [if_pos h]
    refine ⟨⟨fun _ => h, fun _ => rfl⟩, ?_, ?_⟩
    · exact ⟨fun hc => absurd hc (by decide), fun hc => by linarith [hc.2]⟩
    · exact ⟨fun hc => absurd hc (by decide), fun hc => by linarith⟩
  · rw [if_neg (not_le.mpr h)]
    rcases le_or_lt (1/2 : ℚ) s with h' | h'
    · rw [if_pos h']
      refine ⟨?_, ⟨fun _ => ⟨h', h⟩, fun _ => rfl⟩, ?_⟩
      · exact ⟨fun hc => absurd hc (by decide), fun hc => by linarith⟩
      · exact ⟨fun hc => absurd hc (by decide), fun hc => by linarith⟩
    · rw [if_neg (not_le.mpr h')]
      refine ⟨?_, ?_, ⟨fun _ => h', fun _ => rfl⟩⟩
      · exact ⟨fun hc => absurd hc (by decide), fun hc => by linarith⟩
      · exact ⟨fun hc => absurd hc (by decide), fun hc => by linarith [hc.1]⟩

/-- Claim C3: For every call with threshold `minRelevance` (default 0.3): the
output of `rankMatches` is exactly (as a multiset) the candidates whose
score reaches the threshold, every output entry's score reaches the
threshold (candidates below it are excluded), the output is sorted in
descending order of `relevance_score`, and each entry's priority is high
exactly when its score ≥ 0.8, medium exactly when 0.5 ≤ score < 0.8, and
low exactly when score < 0.5. -/
theorem rankMatches_spec (minRelevance : ℚ) (cands : List ScoredCandidate) :
    (rankMatches minRelevance cands).Perm
        ((cands.filter fun c => decide (minRelevance ≤ c.relevance_score)).map
          toMatchEntry) ∧
    (∀ m ∈ rankMatches minRelevance cands, minRelevance ≤ m.relevance_score) ∧
    List.Sorted (fun a b : MatchEntry => b.relevance_score ≤ a.relevance_score)
      (rankMatches minRelevance cands) ∧
    (∀ m ∈ rankMatches minRelevance cands,
      (m.priority = "high" ↔ 4/5 ≤ m.relevance_score) ∧
      (m.priority = "medium" ↔ 1/2 ≤ m.relevance_score ∧ m.relevance_score < 4/5) ∧
      (m.priority = "low" ↔ m.relevance_score < 1/2)) := by
  have hperm := rankMatches_perm minRelevance cands
  have hmem : ∀ m ∈ rankMatches minRelevance cands,
      ∃ c, c ∈ cands ∧ minRelevance ≤ c.relevance_score ∧ m = toMatchEntry c := by
    intro m hm
    have := hperm.mem_iff.mp hm
    rcases List.mem_map.mp this with ⟨c, hc, rfl⟩
    rcases List.mem_filter.mp hc with ⟨hcc, hle⟩
    exact ⟨c, hcc, by simpa using hle, rfl⟩
  refine ⟨hperm, ?_, ?_, ?_⟩
  · intro m hm
    rcases hmem m hm with ⟨c, _, hle, rfl⟩
    exact hle
  · have hs := @List.sorted_mergeSort ScoredCandidate scoreDescends
      (fun a b c hab hbc => by
        simp only [scoreDescends, decide_eq_true_eq] at *
        exact le_trans hbc hab)
      (fun a b => by
        simp only [scoreDescends, Bool.or_eq_true, decide_eq_true_eq]
        exact (le_total b.relevance_score a.relevance_score))
      (cands.filter fun c => decide (minRelevance ≤ c.relevance_score))
    unfold rankMatches
    rw [List.Sorted, List.pairwise_map]
    exact hs.imp fun h => by
      simpa [scoreDescends, toMatchEntry] using h
  · intro m hm
    rcases hmem m hm with ⟨c, _, _, rfl⟩
    have h := priorityOf_spec c.relevance_score
    simpa [toMatchEntry] using h

/-! ### Theorems for the Rules Store (claim C5) -/

/-- Trace invariant: the number of real loads is bounded by the number of
resets plus one, and from an already-loaded state by the number of resets
alone. -/
lemma runStore_count_bound {D : Type} (artifact : D) :
    ∀ (ops : List StoreOp) (s : StoreState D),
      (runStore artifact s ops).2.1 ≤ countResets ops + 1 ∧
      (∀ d, s.cached = some d → (runStore artifact s ops).2.1 ≤ countResets ops) := by
  intro ops
  induction ops with
  | nil => intro s; simp [runStore, countResets]
  | cons op ops ih =>
    intro s
    cases op with
    | load =>
      rcases hc : s.cached with _ | d
      · have h := (ih (⟨some artifact⟩ : StoreState D)).2 artifact rfl
        constructor
        · simp only [countResets] at h ⊢
          simp [runStore, storeLoad, hc, List.count_cons]
          omega
        · intro d hd
          simp [hc] at hd
      · have h := (ih s).2 d hc
        have h2 : (runStore artifact s (StoreOp.load :: ops)).2.1 ≤ countResets ops := by
          simp only [runStore, storeLoad, hc]
          simpa using h
        refine ⟨?_, fun d _ => ?_⟩
        · calc (runStore artifact s (StoreOp.load :: ops)).2.1 ≤ countResets ops := h2
            _ ≤ countResets (StoreOp.load :: ops) + 1 := by
              simp [countResets, List.count_cons]
        · calc (runStore artifact s (StoreOp.load :: ops)).2.1 ≤ countResets ops := h2
            _ ≤ countResets (StoreOp.load :: ops) := by
              simp [countResets, List.count_cons]
    | reset =>
      have h := (ih (⟨none⟩ : StoreState D)).1
      have he : countResets (StoreOp.reset :: ops) = countResets ops + 1 := by
        simp [countResets, List.count_cons]
      refine ⟨?_, fun d _ => ?_⟩
      · simp only [runStore, storeReset]
        omega
      · simp only [runStore, storeReset]
        omega

/-- Trace invariant: starting from an empty or consistently-loaded cache,
every value served to a caller is the loaded artifact. -/
lemma runStore_results {D : Type} (artifact : D) :
    ∀ (ops : List StoreOp) (s : StoreState D),
      s.cached = none ∨ s.cached = some artifact →
      ∀ d ∈ (runStore artifact s ops).2.2, d = artifact := by
  intro ops
  induction ops with
  | nil => intro s _; simp [runStore]
  | cons op ops ih =>
    intro s hs
    cases op with
    | load =>
      rcases hs with hc | hc <;>
        · intro d hd
          simp only [runStore, storeLoad, hc, List.mem_cons] at hd
          rcases hd with rfl | hd
          · rfl
          · exact ih _ (by simp [hc]) d hd
    | reset =>
      intro d hd
      simp only [runStore, storeReset] at hd
      exact ih (⟨none⟩ : StoreState D) (by simp) d hd

/-- Claim C5: Over every interleaved trace of `load` and `reset` operations
starting from the pristine store: a trace with no reset performs the real
artifact load at most once (all subsequent — including interleaved
first-access — `load` calls are served from memory); in general a re-load
can happen only after a reset (the number of real loads never exceeds the
number of resets plus one); and every caller observes the same fully-loaded
result. -/
theorem rulesStore_load_at_most_once {D : Type} (artifact : D) (ops : List StoreOp) :
    (StoreOp.reset ∉ ops → (runStore artifact ⟨none⟩ ops).2.1 ≤ 1) ∧
    (runStore artifact ⟨none⟩ ops).2.1 ≤ countResets ops + 1 ∧
    (∀ d ∈ (runStore artifact ⟨none⟩ ops).2.2, d = artifact) := by
  refine ⟨?_, (runStore_count_bound artifact ops ⟨none⟩).1, runStore_results artifact ops ⟨none⟩ (by simp)⟩
  intro hr
  have h := (runStore_count_bound artifact ops ⟨none⟩).1
  have hz : countResets ops = 0 := by
    simp [countResets, List.count_eq_zero]
    exact hr
  omega

/-- Concrete check of C5: three concurrent-style load calls on a fresh store
perform exactly at most one real load and all observe the artifact 7. -/
theorem rulesStore_load_at_most_once_witness :
    (runStore 7 ⟨none⟩ [StoreOp.load, StoreOp.load, StoreOp.load]).2.1 ≤ 1 ∧
    ∀ d ∈ (runStore 7 ⟨none⟩ [StoreOp.load, StoreOp.load, StoreOp.load]).2.2, d = 7 :=
  ⟨(rulesStore_load_at_most_once 7 [StoreOp.load, StoreOp.load, StoreOp.load]).1 (by decide),
   (rulesStore_load_at_most_once 7 [StoreOp.load, StoreOp.load, StoreOp.load]).2.2⟩

/-! ### Theorems for applicable-feature determination (claim C4) -/

/-- Claim C4: For every profile and rule set: every size/occupancy feature of
the rule set is applicable unconditionally; the implicit general/safety
feature group is applicable unconditionally; and every other feature of the
rule set is applicable if and only if its name is among the profile's
attributes. -/
theorem applicableFeatures_spec (p : UserProfile) (rs : List String) :
    (∀ f ∈ rs, isAlwaysApplicable f = true → f ∈ applicableFeatures p rs) ∧
    generalSafetyFeature ∈ applicableFeatures p rs ∧
    (∀ f ∈ rs, isAlwaysApplicable f = false → f ≠ generalSafetyFeature →
      (f ∈ applicableFeatures p rs ↔ f ∈ p.attributes)) := by
  refine ⟨?_, ?_, ?_⟩
  · intro f hf ha
    exact List.mem_append_left _
      (List.mem_filter.mpr ⟨hf, by simp [matchesUserProfile, ha]⟩)
  · exact List.mem_append_right _ (by simp)
  · intro f hf ha hne
    constructor
    · intro hmem
      rcases List.mem_append.mp hmem with h | h
      · have hb := (List.mem_filter.mp h).2
        simp [matchesUserProfile, ha] at hb
        exact hb
      · rw [List.mem_singleton] at h
        exact absurd h hne
    · intro hattr
      exact List.mem_append_left _
        (List.mem_filter.mpr ⟨hf, by simp [matchesUserProfile, hattr]⟩)

/-- Concrete check of C4: with attributes ["גז"], the size feature and the
selected feature are applicable, while an unselected dynamic feature is
not. -/
theorem applicableFeatures_spec_witness :
    sizeFeatureName ∈
      applicableFeatures ⟨none, none, ["גז"]⟩ [sizeFeatureName, "גז", "חשמל"] ∧
    "גז" ∈ applicableFeatures ⟨none, none, ["גז"]⟩ [sizeFeatureName, "גז", "חשמל"] ∧
    "חשמל" ∉ applicableFeatures ⟨none, none, ["גז"]⟩ [sizeFeatureName, "גז", "חשמל"] := by
  have h := applicableFeatures_spec ⟨none, none, ["גז"]⟩ [sizeFeatureName, "גז", "חשמל"]
  refine ⟨h.1 sizeFeatureName (by simp) (by decide), ?_, ?_⟩
  · exact (h.2.2 "גז" (by simp) (by decide) (by decide)).mpr (by simp)
  · intro hmem
    have := (h.2.2 "חשמל" (by simp) (by decide) (by decide)).mp hmem
    simp at this

/-! ### Theorems for load-failure semantics (claim C6) -/

/-- Claim C6: The Rules Store load fails exactly when an artifact is absent or
structurally invalid, and then with `DataUnavailableError`; a matching
request served through the store returns an error exactly when the load
failed (and it is that fatal error, not an empty result); a successful load
always produces a full result, and when that result has no matches its
statistics are zero-filled — the engine never errors for well-formed but
unmatched input. -/
theorem matchRequirements_error_semantics (praw mraw : Option Json)
    (ruleSet : List (String × List String)) (ans : UserProfile) (minRel : ℚ) :
    (loadParserData praw mraw = Except.error DataError.dataUnavailable ↔
      ¬ ∃ t m, praw = some t ∧ mraw = some m ∧
        validArtifactShape t = true ∧ validArtifactShape m = true) ∧
    (∀ e, matchRequirements (loadParserData praw mraw) ruleSet ans minRel =
        Except.error e ↔ loadParserData praw mraw = Except.error e) ∧
    (∀ t m, loadParserData praw mraw = Except.ok (t, m) →
      matchRequirements (loadParserData praw mraw) ruleSet ans minRel =
        Except.ok (matchRequirementsData t m ruleSet ans minRel) ∧
      ((matchRequirementsData t m ruleSet ans minRel).matched_requirements = [] →
        (matchRequirementsData t m ruleSet ans minRel).total_matches = 0 ∧
        (matchRequirementsData t m ruleSet ans minRel).priority_high = 0 ∧
        (matchRequirementsData t m ruleSet ans minRel).priority_medium = 0 ∧
        (matchRequirementsData t m ruleSet ans minRel).priority_low = 0 ∧
        (matchRequirementsData t m ruleSet ans minRel).avg_relevance = 0)) := by
  refine ⟨?_, ?_, ?_⟩
  · rcases praw with _ | t <;> rcases mraw with _ | m <;>
      simp only [loadParserData]
    · simp
    · simp
    · simp
    · rcases hv : validArtifactShape t && validArtifactShape m with _ | _
      · rw [if_neg (by simp [hv])]
        rw [Bool.and_eq_false_iff] at hv
        constructor
        · rintro - ⟨t', m', ht, hm, hvt, hvm⟩
          injection ht with ht; injection hm with hm
          subst ht; subst hm
          rcases hv with hv | hv <;> simp_all
        · intro h
          rfl
      · rw [if_pos (by simp_all)]
        constructor
        · intro h; exact absurd h (by simp)
        · intro h
          exact absurd ⟨t, m, rfl, rfl, by simp_all, by simp_all⟩ h
  · intro e
    rcases h : loadParserData praw mraw with e' | tm
    · simp [matchRequirements]
    · simp [matchRequirements]
  · intro t m h
    rw [h]
    refine ⟨rfl, ?_⟩
    intro hempty
    simp only [matchRequirementsData] at hempty ⊢
    rw [hempty]
    simp [sumScores]

/-- Concrete check of C6: with both artifacts present and valid the request
succeeds; with the tree artifact missing the request receives the fatal
`DataUnavailableError`. -/
theorem matchRequirements_error_semantics_witness :
    matchRequirements (loadParserData (some (Json.obj [])) (some (Json.obj [])))
        [] ⟨none, none, []⟩ (3/10) =
      Except.ok (matchRequirementsData (Json.obj []) (Json.obj []) [] ⟨none, none, []⟩ (3/10)) ∧
    matchRequirements (loadParserData none (some (Json.obj []))) [] ⟨none, none, []⟩ (3/10) =
      Except.error DataError.dataUnavailable := by
  constructor
  · exact (((matchRequirements_error_semantics (some (Json.obj [])) (some (Json.obj []))
      [] ⟨none, none, []⟩ (3/10)).2.2) (Json.obj []) (Json.obj []) rfl).1
  · exact ((matchRequirements_error_semantics none (some (Json.obj []))
      [] ⟨none, none, []⟩ (3/10)).2.1 DataError.dataUnavailable).mpr rfl

/-! ### Engine-level score bounds (claim C2) and concrete witnesses -/

/-- A candidate's recorded score is exactly the relevance assessment of its
resolved text. -/
lemma scoreCandidate_score (tree : Json) (ruleSet : List (String × List String))
    (feats : List String) (ans : UserProfile) (cn : String × String)
    (c : ScoredCandidate) (h : scoreCandidate tree ruleSet feats ans cn = some c) :
    c.relevance_score =
      assessRequirementRelevance (getParagraphText tree cn.1 cn.2) ans
        (extractNumericRanges (getParagraphText tree cn.1 cn.2))
        (countDynamicFeatureMatches ruleSet feats (getParagraphText tree cn.1 cn.2)) := by
  simp only [scoreCandidate] at h
  split at h
  · injection h with h
    subst h
    rfl
  · exact absurd h (by simp)

/-- Claim C2: Every relevance score — the base 0.3 plus the additive scoring
factors, with the conflict penalty, capped at 1.0 — lies in [0,1]; in
particular, every match produced by the matching engine on any input
carries a `relevance_score` in [0,1]. -/
theorem relevance_score_mem_Icc :
    (∀ (text : String) (p : UserProfile) (r : ParagraphRanges) (n : ℕ),
      0 ≤ assessRequirementRelevance text p r n ∧
        assessRequirementRelevance text p r n ≤ 1) ∧
    (∀ (tree mappings : Json) (ruleSet : List (String × List String))
      (ans : UserProfile) (minRel : ℚ),
      ∀ m ∈ (matchRequirementsData tree mappings ruleSet ans minRel).matched_requirements,
        0 ≤ m.relevance_score ∧ m.relevance_score ≤ 1) := by
  refine ⟨assessRequirementRelevance_bounds, ?_⟩
  intro tree mappings ruleSet ans minRel m hm
  simp only [matchRequirementsData] at hm
  have hp := (rankMatches_perm minRel _).mem_iff.mp hm
  rcases List.mem_map.mp hp with ⟨c, hc, rfl⟩
  rcases List.mem_filterMap.mp (List.mem_filter.mp hc).1 with ⟨cn, _, hsc⟩
  have hs := scoreCandidate_score tree ruleSet
    (applicableFeatures ans (List.map Prod.fst ruleSet)) ans cn c hsc
  have hb := assessRequirementRelevance_bounds (getParagraphText tree cn.1 cn.2) ans
    (extractNumericRanges (getParagraphText tree cn.1 cn.2))
    (countDynamicFeatureMatches ruleSet (applicableFeatures ans (List.map Prod.fst ruleSet))
      (getParagraphText tree cn.1 cn.2))
  have hrs : (toMatchEntry c).relevance_score = c.relevance_score := rfl
  rw [hrs, hs]
  exact hb

/-- The witness paragraph scores base 0.3 plus the 0.3 safety bonus. -/
lemma witnessCandidate_score : witnessCandidate.relevance_score = 3/5 := by
  show assessRequirementRelevance "בטיחות" witnessProfile ⟨none, none⟩ 0 = 3/5
  have hsb : safetyBonus "בטיחות" = 3/10 := by
    unfold safetyBonus
    rw [if_pos (by decide)]
  simp only [assessRequirementRelevance, dimensionBonus, matchesNumericRequirements,
    dimensionOk, witnessProfile, hsb]
  norm_num

/-- The witness candidate passes the default threshold. -/
lemma witnessCandidate_kept :
    decide ((3:ℚ)/10 ≤ witnessCandidate.relevance_score) = true := by
  simp only [decide_eq_true_eq, witnessCandidate_score]
  norm_num

/-- The witness entry is a member of the engine output. -/
lemma witnessEntry_mem :
    witnessEntry ∈
      (matchRequirementsData witnessTree witnessMappings [] witnessProfile
        (3/10)).matched_requirements := by
  simp only [matchRequirementsData]
  refine (rankMatches_perm _ _).mem_iff.mpr ?_
  have hfm : List.filterMap
      (scoreCandidate witnessTree []
        (applicableFeatures witnessProfile
          (List.map Prod.fst ([] : List (String × List String)))) witnessProfile)
      (collectCandidates witnessMappings
        (applicableFeatures witnessProfile
          (List.map Prod.fst ([] : List (String × List String))))) =
      [witnessCandidate] := rfl
  rw [hfm, List.filter_cons, if_pos witnessCandidate_kept]
  simp [witnessEntry]

/-- Concrete check of C2: the engine run on the witness artifacts produces a
match whose score lies in [0,1]. -/
theorem relevance_score_mem_Icc_witness :
    0 ≤ witnessEntry.relevance_score ∧ witnessEntry.relevance_score ≤ 1 :=
  relevance_score_mem_Icc.2 witnessTree witnessMappings [] witnessProfile
    (3/10) witnessEntry witnessEntry_mem

/-- Concrete check of C3: the kept entry reaches the default threshold and
its priority band characterization holds for it. -/
theorem rankMatches_spec_witness :
    (3:ℚ)/10 ≤ witnessEntry.relevance_score ∧
    (witnessEntry.priority = "medium" ↔
      1/2 ≤ witnessEntry.relevance_score ∧ witnessEntry.relevance_score < 4/5) := by
  have hm : witnessEntry ∈ rankMatches (3/10) [witnessCandidate] := by
    refine (rankMatches_perm _ _).mem_iff.mpr ?_
    rw [List.filter_cons, if_pos witnessCandidate_kept]
    simp [witnessEntry]
  have h := rankMatches_spec (3/10) [witnessCandidate]
  exact ⟨h.2.1 witnessEntry hm, (h.2.2.2 witnessEntry hm).2.1⟩

/-- Concrete check of C1: a profile of 15000 m² violates a paragraph
constrained to at most 300 m² and is dropped, while a profile with no size
datum is kept. -/
theorem matchesNumericRequirements_false_iff_witness :
    matchesNumericRequirements ⟨some 15000, none, []⟩
        (extractNumericRanges "עד 300 מ\"ר") = false ∧
    matchesNumericRequirements ⟨none, none, []⟩
        (extractNumericRanges "עד 300 מ\"ר") = true := by
  constructor
  · refine (matchesNumericRequirements_false_iff ⟨some 15000, none, []⟩
      (extractNumericRanges "עד 300 מ\"ר")).mpr ?_
    exact Or.inl ⟨⟨none, some 300, []⟩, 15000, by decide, rfl, by decide⟩
  · decide

/-! ### Theorems for the frontend API cache (claim C9) -/

/-- Claim C9: The `get` helper caches successful responses by full URL: after
a successful call the value sits in the cache under the full URL, and a
repeated call with the same path returns the same value with the state
unchanged — in particular without performing another fetch (the fetch count
stays put); a failed call (non-ok response) leaves the cache unchanged, so
failures are not cached. -/
theorem get_cache_spec {V : Type} (fetchFn : String → FetchResponse V)
    (s : ApiState V) (path : String) :
    (∀ s' v, get fetchFn s path = (s', GetResult.success v) →
      lookupCache s'.cache (API_BASE ++ path) = some v ∧
      get fetchFn s' path = (s', GetResult.success v)) ∧
    (∀ s' code, get fetchFn s path = (s', GetResult.failure code) →
      s'.cache = s.cache) := by
  constructor
  · intro s' v h
    simp only [get] at h
    rcases hl : lookupCache s.cache (API_BASE ++ path) with _ | v0 <;>
      simp only [hl] at h
    · rcases hok : (fetchFn (API_BASE ++ path)).ok with _ | _
      · simp [hok] at h
      · simp [hok] at h
        obtain ⟨h1, h2⟩ := h
        subst h1
        subst h2
        refine ⟨by simp [lookupCache], ?_⟩
        simp [get, lookupCache]
    · simp at h
      obtain ⟨h1, h2⟩ := h
      subst h1
      subst h2
      exact ⟨hl, by simp [get, hl]⟩
  · intro s' code h
    simp only [get] at h
    rcases hl : lookupCache s.cache (API_BASE ++ path) with _ | v0 <;>
      simp only [hl] at h
    · rcases hok : (fetchFn (API_BASE ++ path)).ok with _ | _
      · simp [hok] at h
        obtain ⟨h1, h2⟩ := h
        subst h1
        rfl
      · simp [hok] at h
    · simp at h

/-- Concrete check of C9: a successful fetch of 42 is cached under the full
URL and the repeated call is served from the cache with an unchanged
state. -/
theorem get_cache_spec_witness :
    lookupCache (ApiState.mk [(API_BASE ++ "/questions", 42)] 1).cache
        (API_BASE ++ "/questions") = some 42 ∧
    get (fun _ => FetchResponse.mk true 200 42)
        (ApiState.mk [(API_BASE ++ "/questions", 42)] 1) "/questions" =
      (ApiState.mk [(API_BASE ++ "/questions", 42)] 1, GetResult.success 42) :=
  (get_cache_spec (fun _ => FetchResponse.mk true 200 42) (ApiState.mk [] 0)
    "/questions").1 (ApiState.mk [(API_BASE ++ "/questions", 42)] 1) 42 rfl

/-! ### Theorems for the priority badge (claim C10) -/

/-- Claim C10: The ResultsDisplay badge is a two-way label: it reads
`עדיפות גבוהה` exactly when the requirement's priority equals `high`, and
every other priority value — including `low` — is rendered with the medium
label `עדיפות בינונית`, so a low priority is never displayed as such. -/
theorem priorityBadgeLabel_spec :
    (∀ p, priorityBadgeLabel p = "עדיפות גבוהה" ↔ p = "high") ∧
    (∀ p, p ≠ "high" → priorityBadgeLabel p = "עדיפות בינונית") ∧
    priorityBadgeLabel "low" = "עדיפות בינונית" := by
  refine ⟨?_, ?_, by decide⟩
  · intro p
    unfold priorityBadgeLabel
    by_cases h : p = "high"
    · simp [h]
    · rw [if_neg h]
      constructor
      · intro hc; exact absurd hc (by decide)
      · intro hc; exact absurd hc h
  · intro p h
    unfold priorityBadgeLabel
    rw [if_neg h]

/-- Concrete check of C10: a low-priority requirement is rendered with the
medium label, and the high label appears exactly for high priority. -/
theorem priorityBadgeLabel_spec_witness :
    priorityBadgeLabel "low" = "עדיפות בינונית" ∧
    priorityBadgeLabel "high" = "עדיפות גבוהה" :=
  ⟨priorityBadgeLabel_spec.2.1 "low" (by decide),
   (priorityBadgeLabel_spec.1 "high").mpr rfl⟩

/-! ### Theorems for the dotted-header parser (claim C8) -/

/-- Splitting a separator-free list is the singleton of the list. -/
lemma splitOnChar_no_sep (sep : Char) :
    ∀ cs : List Char, sep ∉ cs → splitOnChar sep cs = [cs] := by
  intro cs
  induction cs with
  | nil => intro _; rfl
  | cons c cs ih =>
    intro h
    have hc : ¬c = sep := fun hc => h (hc ▸ List.mem_cons_self c cs)
    have hcs := ih fun hm => h (List.mem_cons_of_mem c hm)
    simp only [splitOnChar, hcs, if_neg hc]

/-- Splitting at the first separator after a separator-free block. -/
lemma splitOnChar_append (sep : Char) :
    ∀ s t : List Char, sep ∉ s →
      splitOnChar sep (s ++ sep :: t) = s :: splitOnChar sep t := by
  intro s
  induction s with
  | nil => intro t _; simp [splitOnChar]
  | cons c s ih =>
    intro t h
    have hc : ¬c = sep := fun hc => h (hc ▸ List.mem_cons_self c s)
    have hs := ih t fun hm => h (List.mem_cons_of_mem c hm)
    simp only [List.cons_append, splitOnChar, if_neg hc]
    rw [List.append_eq, hs]

/-- takeWhile runs through a block satisfying the predicate. -/
lemma takeWhile_append_of_all (p : Char → Bool) :
    ∀ s t : List Char, (∀ c ∈ s, p c = true) →
      List.takeWhile p (s ++ t) = s ++ List.takeWhile p t := by
  intro s
  induction s with
  | nil => intro t _; rfl
  | cons c s ih =>
    intro t h
    have hc := h c (List.mem_cons_self c s)
    simp only [List.cons_append, List.takeWhile_cons, hc,
      ih t fun x hx => h x (List.mem_cons_of_mem c hx)]
    simp

/-- Every character of a rendered dotted number of numeric segments is a
digit or a dot. -/
lemma joinDotted_chars :
    ∀ segs : List (List Char), (∀ s ∈ segs, isNumericSegment s = true) →
      ∀ c ∈ joinDotted segs, (c.isDigit || c = '.') = true := by
  intro segs
  induction segs with
  | nil => intro _ c hc; exact absurd hc (by simp [joinDotted])
  | cons s rest ih =>
    intro h c hc
    rcases rest with _ | ⟨s2, rest2⟩
    · have hs := h s (List.mem_cons_self s [])
      simp only [joinDotted] at hc
      have := (List.all_eq_true.mp (Bool.and_elim_right hs)) c hc
      simp [this]
    · simp only [joinDotted, List.mem_append, List.mem_cons] at hc
      rcases hc with hc | hc | hc
      · have hs := h s (List.mem_cons_self s _)
        have := (List.all_eq_true.mp (Bool.and_elim_right hs)) c hc
        simp [this]
      · simp [hc]
      · exact ih (fun x hx => h x (List.mem_cons_of_mem s hx)) c hc

/-- A numeric segment contains no dot. -/
lemma isNumericSegment_no_dot {s : List Char} (h : isNumericSegment s = true) :
    '.' ∉ s := by
  intro hm
  have := (List.all_eq_true.mp (Bool.and_elim_right h)) _ hm
  exact absurd this (by decide)

/-- Splitting a rendered dotted number recovers its segments. -/
lemma splitOnChar_joinDotted :
    ∀ segs : List (List Char), segs ≠ [] →
      (∀ s ∈ segs, isNumericSegment s = true) →
      splitOnChar '.' (joinDotted segs) = segs := by
  intro segs
  induction segs with
  | nil => intro h _; exact absurd rfl h
  | cons s rest ih =>
    intro _ h
    rcases rest with _ | ⟨s2, rest2⟩
    · exact splitOnChar_no_sep '.' s
        (isNumericSegment_no_dot (h s (List.mem_cons_self s [])))
    · have hjoin : joinDotted (s :: s2 :: rest2) = s ++ '.' :: joinDotted (s2 :: rest2) := rfl
      rw [hjoin, splitOnChar_append '.' s _
        (isNumericSegment_no_dot (h s (List.mem_cons_self s _)))]
      rw [ih (by simp) fun x hx => h x (List.mem_cons_of_mem s hx)]

/-- Claim C8: For every header line whose dotted number has 1–20 numeric
segments (followed by a space and the header title), the parser recognizes
exactly those segments, and opens the paragraph at nesting depth equal to
the segment count with the canonical dotted number carrying its chapter
number as prefix. -/
theorem parser_header_spec (segs : List (List Char)) (chapter : List Char)
    (stack : List (ℕ × List Char)) (title : List Char)
    (h₁ : segs ≠ []) (h₂ : segs.length ≤ 20)
    (h₃ : ∀ s ∈ segs, isNumericSegment s = true)
    (h₄ : segs.head? ≠ some chapter) :
    parseDottedHeader (joinDotted segs ++ ' ' :: title) = some segs ∧
    (openParagraph chapter stack segs).head? =
      some (segs.length, joinDotted (chapter :: segs)) := by
  constructor
  · simp only [parseDottedHeader]
    have htw : List.takeWhile (fun c => c.isDigit || decide (c = '.'))
        (joinDotted segs ++ ' ' :: title) = joinDotted segs := by
      rw [takeWhile_append_of_all _ _ _ (joinDotted_chars segs h₃)]
      simp [List.takeWhile_cons]
    have hne : segs.isEmpty = false := by
      cases segs with
      | nil => exact absurd rfl h₁
      | cons a l => rfl
    have hcond : (!segs.isEmpty && decide (segs.length ≤ 20) &&
        segs.all isNumericSegment) = true := by
      simp only [Bool.and_eq_true, List.all_eq_true, hne, Bool.not_false]
      exact ⟨⟨trivial, decide_eq_true h₂⟩, h₃⟩
    rw [htw, splitOnChar_joinDotted segs h₁ h₃, if_pos hcond]
  · unfold openParagraph canonicalNumber
    rw [if_neg h₄]
    rfl

/-- Concrete check of C8: the header line `1.2 כיבוי` under chapter 5 opens
a paragraph at depth 2 with canonical number `5.1.2`. -/
theorem parser_header_spec_witness :
    parseDottedHeader ("1.2 כיבוי".toList) = some ["1".toList, "2".toList] ∧
    (openParagraph "5".toList [(1, "5.1".toList)]
        ["1".toList, "2".toList]).head? =
      some (2, "5.1.2".toList) := by
  have h := parser_header_spec ["1".toList, "2".toList] "5".toList
    [(1, "5.1".toList)] "כיבוי".toList (by decide) (by decide)
    (by decide) (by decide)
  exact ⟨h.1, h.2⟩

/-! ### Idempotence of the normalizer (claim C7): step-1 lemmas -/

/-- Unification maps every character to itself or to a canonical target. -/
lemma canonChar_cases (c : Char) :
    canonChar c = c ∨ canonChar c = ' ' ∨ canonChar c = '-' ∨ canonChar c = '"' := by
  unfold canonChar
  split_ifs <;> simp

/-- Unification is idempotent character-wise. -/
lemma canonChar_canonChar (c : Char) : canonChar (canonChar c) = canonChar c := by
  rcases canonChar_cases c with h | h | h | h <;> rw [h]
  · exact h
  · decide
  · decide
  · decide

/-- Every character of a unified text is a fixed point of unification. -/
lemma unifyChars_fixed (l : List Char) :
    ∀ c ∈ unifyChars l, canonChar c = c := by
  intro c hc
  rcases List.mem_map.mp hc with ⟨a, _, rfl⟩
  exact canonChar_canonChar a

/-- Unification is the identity on texts of unification-fixed characters. -/
lemma unifyChars_eq_self (l : List Char) (h : ∀ c ∈ l, canonChar c = c) :
    unifyChars l = l := by
  induction l with
  | nil => rfl
  | cons c cs ih =>
    simp only [unifyChars, List.map_cons] at ih ⊢
    rw [h c (List.mem_cons_self c cs),
      ih fun x hx => h x (List.mem_cons_of_mem c hx)]

/-- A list of fewer than four characters reflows to itself. -/
lemma reflow_short (t : List Char)
    (h : ∀ (a b c d : Char) (tail : List Char), t = a :: b :: c :: d :: tail → False) :
    reflow t = t := by
  rcases t with _ | ⟨a, _ | ⟨b, _ | ⟨c, _ | ⟨d, tl⟩⟩⟩⟩
  · rfl
  · rfl
  · rfl
  · rfl
  · exact absurd rfl (h a b c d tl)

/-- Reflow only removes characters. -/
lemma mem_reflow : ∀ l : List Char, ∀ c ∈ reflow l, c ∈ l := by
  intro l
  induction l using reflow.induct with
  | case1 a b c d tail hcond ih =>
    intro x hx
    rw [reflow, if_pos hcond] at hx
    rcases List.mem_cons.mp hx with rfl | hx
    · exact List.mem_cons_self _ _
    · have := ih x hx
      simp only [List.mem_cons] at this ⊢
      tauto
  | case2 a b c d tail hcond ih =>
    intro x hx
    rw [reflow, if_neg hcond] at hx
    rcases List.mem_cons.mp hx with rfl | hx
    · exact List.mem_cons_self _ _
    · have := ih x hx
      simp only [List.mem_cons] at this ⊢
      tauto
  | case3 t h =>
    intro x hx
    rw [reflow_short t h] at hx
    exact hx

/-- A list of fewer than three characters keeps its dots. -/
lemma deDotRun_short (t : List Char)
    (h : ∀ (a b c : Char) (tail : List Char), t = a :: b :: c :: tail → False) :
    deDotRun t = t := by
  rcases t with _ | ⟨a, _ | ⟨b, _ | ⟨c, tl⟩⟩⟩
  · rfl
  · rfl
  · rfl
  · exact absurd rfl (h a b c tl)

/-- Blanking dot runs only keeps characters or writes spaces. -/
lemma mem_deDotRun : ∀ l : List Char, ∀ c ∈ deDotRun l, c ∈ l ∨ c = ' ' := by
  intro l
  induction l using deDotRun.induct with
  | case1 a b c rest hcond ih =>
    intro x hx
    rw [deDotRun, if_pos hcond] at hx
    simp only [List.mem_cons] at hx ⊢
    rcases hx with rfl | rfl | rfl | hx
    · exact Or.inr rfl
    · exact Or.inr rfl
    · exact Or.inr rfl
    · rcases ih x hx with h | h
      · tauto
      · exact Or.inr h
  | case2 a b c rest hcond ih =>
    intro x hx
    rw [deDotRun, if_neg hcond] at hx
    simp only [List.mem_cons] at hx ⊢
    rcases hx with rfl | hx
    · tauto
    · rcases ih x hx with h | h
      · simp only [List.mem_cons] at h
        tauto
      · exact Or.inr h
  | case3 t h3 =>
    intro x hx
    rw [deDotRun_short t h3] at hx
    exact Or.inl hx

/-- Stripping one line only keeps characters or writes spaces. -/
lemma mem_stripLine (l : List Char) : ∀ c ∈ stripLine l, c ∈ l ∨ c = ' ' := by
  intro c hc
  unfold stripLine at hc
  split at hc
  · rcases List.mem_map.mp hc with ⟨a, _, rfl⟩
    exact Or.inr rfl
  · exact mem_deDotRun l c hc

/-- Characters of a joined line list come from the lines or are newlines. -/
lemma mem_joinLines : ∀ lls : List (List Char), ∀ c ∈ joinLines lls,
    (∃ l ∈ lls, c ∈ l) ∨ c = '\n' := by
  intro lls
  induction lls with
  | nil => intro c hc; exact absurd hc (by simp [joinLines])
  | cons l rest ih =>
    intro c hc
    rcases rest with _ | ⟨l2, rest2⟩
    · exact Or.inl ⟨l, List.mem_cons_self _ _, hc⟩
    · simp only [joinLines, List.mem_append, List.mem_cons] at hc
      rcases hc with hc | rfl | hc
      · exact Or.inl ⟨l, List.mem_cons_self _ _, hc⟩
      · exact Or.inr rfl
      · rcases ih c hc with ⟨l', hl', hc'⟩ | h
        · exact Or.inl ⟨l', List.mem_cons_of_mem _ hl', hc'⟩
        · exact Or.inr h

/-- Characters of a split line come from the original text. -/
lemma mem_splitOnChar (sep : Char) :
    ∀ l : List Char, ∀ l' ∈ splitOnChar sep l, ∀ c ∈ l', c ∈ l := by
  intro l
  induction l with
  | nil =>
    intro l' hl' c hc
    simp only [splitOnChar, List.mem_singleton] at hl'
    subst hl'
    exact absurd hc (by simp)
  | cons x xs ih =>
    intro l' hl' c hc
    simp only [splitOnChar] at hl'
    by_cases hx : x = sep
    · rw [if_pos hx] at hl'
      rcases List.mem_cons.mp hl' with rfl | hl'
      · exact absurd hc (by simp)
      · exact List.mem_cons_of_mem _ (ih l' hl' c hc)
    · rw [if_neg hx] at hl'
      rcases hr : splitOnChar sep xs with _ | ⟨t, ts⟩
      · rw [hr] at hl'
        rcases List.mem_singleton.mp hl'
        rcases List.mem_cons.mp hc with rfl | hc2
        · exact List.mem_cons_self _ _
        · exact absurd hc2 (by simp)
      · rw [hr] at hl'
        rcases List.mem_cons.mp hl' with rfl | hl'
        · rcases List.mem_cons.mp hc with rfl | hc2
          · exact List.mem_cons_self _ _
          · exact List.mem_cons_of_mem _ (ih t (by rw [hr]; exact List.mem_cons_self _ _) c hc2)
        · exact List.mem_cons_of_mem _ (ih l' (by rw [hr]; exact List.mem_cons_of_mem _ hl') c hc)

/-- Stripping pagination only keeps characters or writes whitespace. -/
lemma mem_stripPagination (l : List Char) :
    ∀ c ∈ stripPagination l, c ∈ l ∨ c = ' ' ∨ c = '\n' := by
  intro c hc
  unfold stripPagination at hc
  rcases mem_joinLines _ c hc with ⟨l', hl', hc'⟩ | h
  · rcases List.mem_map.mp hl' with ⟨l0, hl0, rfl⟩
    rcases mem_stripLine l0 c hc' with h | h
    · exact Or.inl (mem_splitOnChar '\n' l l0 hl0 c h)
    · exact Or.inr (Or.inl h)
  · exact Or.inr (Or.inr h)

/-- A list of fewer than four characters needs no chapter-space repair. -/
lemma fixChapterSpace_short (t : List Char)
    (h : ∀ (a b c d : Char) (tail : List Char), t = a :: b :: c :: d :: tail → False) :
    fixChapterSpace t = t := by
  rcases t with _ | ⟨a, _ | ⟨b, _ | ⟨c, _ | ⟨d, tl⟩⟩⟩⟩
  · rfl
  · rfl
  · rfl
  · rfl
  · exact absurd rfl (h a b c d tl)

/-- Chapter-space repair only keeps characters or inserts spaces. -/
lemma mem_fixChapterSpace : ∀ l : List Char, ∀ c ∈ fixChapterSpace l, c ∈ l ∨ c = ' ' := by
  intro l
  induction l using fixChapterSpace.induct with
  | case1 a b c d tail hcond ih =>
    intro x hx
    rw [fixChapterSpace, if_pos hcond] at hx
    simp only [List.mem_cons] at hx ⊢
    rcases hx with rfl | rfl | rfl | rfl | hx
    · tauto
    · tauto
    · tauto
    · tauto
    · rcases ih x hx with h | h
      · simp only [List.mem_cons] at h
        tauto
      · tauto
  | case2 a b c d tail hcond ih =>
    intro x hx
    rw [fixChapterSpace, if_neg hcond] at hx
    simp only [List.mem_cons] at hx ⊢
    rcases hx with rfl | hx
    · tauto
    · rcases ih x hx with h | h
      · simp only [List.mem_cons] at h
        tauto
      · tauto
  | case3 t h =>
    intro x hx
    rw [fixChapterSpace_short t h] at hx
    exact Or.inl hx

/-! ### Idempotence of the normalizer: reflow lemmas -/

/-- Reflow preserves the head character. -/
lemma reflow_cons (a : Char) (l : List Char) : ∃ t, reflow (a :: l) = a :: t := by
  rcases l with _ | ⟨b, _ | ⟨c, _ | ⟨d, tl⟩⟩⟩
  · exact ⟨[], rfl⟩
  · exact ⟨[b], rfl⟩
  · exact ⟨[b, c], rfl⟩
  · rw [reflow]
    split
    · exact ⟨reflow (d :: tl), rfl⟩
    · exact ⟨reflow (b :: c :: d :: tl), rfl⟩

/-- Reflow walks over a non-Hebrew head character. -/
lemma reflow_not_heb_cons (a : Char) (l : List Char) (h : isHeb a = false) :
    reflow (a :: l) = a :: reflow l := by
  rcases l with _ | ⟨b, _ | ⟨c, _ | ⟨d, tl⟩⟩⟩
  · rfl
  · rfl
  · rfl
  · rw [reflow, if_neg (by simp [h])]

/-- No wrap pattern starts at a non-Hebrew character. -/
lemma patternAt_false_of_fst (a : Char) (l : List Char) (h : isHeb a = false) :
    patternAt (a :: l) = false := by
  rcases l with _ | ⟨b, _ | ⟨c, _ | ⟨d, tl⟩⟩⟩
  · rfl
  · rfl
  · rfl
  · rw [patternAt]; simp [h]

/-- No wrap pattern has a non-hyphen in second position. -/
lemma patternAt_false_of_snd (a b : Char) (l : List Char) (h : decide (b = '-') = false) :
    patternAt (a :: b :: l) = false := by
  rcases l with _ | ⟨c, _ | ⟨d, tl⟩⟩
  · rfl
  · rfl
  · rw [patternAt]; simp_all

/-- No wrap pattern has a non-newline in third position. -/
lemma patternAt_false_of_third (a b c : Char) (l : List Char)
    (h : decide (c = '\n') = false) : patternAt (a :: b :: c :: l) = false := by
  rcases l with _ | ⟨d, tl⟩
  · rfl
  · rw [patternAt]; simp_all

/-- No wrap pattern ends at a non-Hebrew character. -/
lemma patternAt_false_of_fourth (a b c d : Char) (l : List Char)
    (h : isHeb d = false) : patternAt (a :: b :: c :: d :: l) = false := by
  rw [patternAt]; simp [h]

/-- A Hebrew letter is not a hyphen. -/
lemma heb_ne_dash {d : Char} (hd : isHeb d = true) : decide (d = '-') = false := by
  rcases hd' : decide (d = '-') with _ | _
  · rfl
  · have : d = '-' := of_decide_eq_true hd'
    rw [this] at hd
    exact absurd hd (by decide)

/-- Reflow is the identity on wrap-free text. -/
lemma reflow_eq_self : ∀ l : List Char, hasBreak l = false → reflow l = l := by
  intro l
  induction l using reflow.induct with
  | case1 a b c d tail hcond ih =>
    intro h
    rw [hasBreak, Bool.or_eq_false_iff] at h
    have hp : patternAt (a :: b :: c :: d :: tail) = true := by
      rw [patternAt]; exact hcond
    rw [hp] at h
    exact absurd h.1 (by simp)
  | case2 a b c d tail hcond ih =>
    intro h
    rw [hasBreak, Bool.or_eq_false_iff] at h
    rw [reflow, if_neg hcond, ih h.2]
  | case3 t h3 =>
    intro _
    exact reflow_short t h3

/-- A list of fewer than four characters has no wrap. -/
lemma hasBreak_short (t : List Char)
    (h : ∀ (a b c d : Char) (tail : List Char), t = a :: b :: c :: d :: tail → False) :
    hasBreak t = false := by
  rcases t with _ | ⟨a, _ | ⟨b, _ | ⟨c, _ | ⟨d, tl⟩⟩⟩⟩
  · rfl
  · rfl
  · rfl
  · rfl
  · exact absurd rfl (h a b c d tl)

/-- Reflowed text is wrap-free. -/
lemma hasBreak_reflow : ∀ l : List Char, hasBreak (reflow l) = false := by
  intro l
  induction l using reflow.induct with
  | case1 a b c d tail hcond ih =>
    rw [reflow, if_pos hcond]
    obtain ⟨t, ht⟩ := reflow_cons d tail
    rw [ht, hasBreak, Bool.or_eq_false_iff]
    refine ⟨?_, by rw [← ht]; exact ih⟩
    have hd : isHeb d = true := by
      simp only [Bool.and_eq_true] at hcond
      exact hcond.2
    exact patternAt_false_of_snd a d t (heb_ne_dash hd)
  | case2 a b c d tail hcond ih =>
    rw [reflow, if_neg hcond]
    rcases ha : isHeb a with _ | _
    · obtain ⟨t, ht⟩ := reflow_cons b (c :: d :: tail)
      rw [ht, hasBreak, Bool.or_eq_false_iff]
      exact ⟨patternAt_false_of_fst a _ ha, by rw [← ht]; exact ih⟩
    · rcases hb : decide (b = '-') with _ | _
      · obtain ⟨t, ht⟩ := reflow_cons b (c :: d :: tail)
        rw [ht, hasBreak, Bool.or_eq_false_iff]
        exact ⟨patternAt_false_of_snd a b t hb, by rw [← ht]; exact ih⟩
      · have hbv : b = '-' := of_decide_eq_true hb
        subst hbv
        have hX : reflow ('-' :: c :: d :: tail) = '-' :: reflow (c :: d :: tail) :=
          reflow_not_heb_cons '-' _ (by decide)
        rw [hX, hasBreak, Bool.or_eq_false_iff]
        refine ⟨?_, by rw [← hX]; exact ih⟩
        rcases hc : decide (c = '\n') with _ | _
        · obtain ⟨t, ht⟩ := reflow_cons c (d :: tail)
          rw [ht]
          exact patternAt_false_of_third a '-' c t hc
        · have hcv : c = '\n' := of_decide_eq_true hc
          subst hcv
          have hY : reflow ('\n' :: d :: tail) = '\n' :: reflow (d :: tail) :=
            reflow_not_heb_cons '\n' _ (by decide)
          rw [hY]
          obtain ⟨t, ht⟩ := reflow_cons d tail
          rw [ht]
          have hd : isHeb d = false := by
            rcases hd2 : isHeb d with _ | _
            · rfl
            · exact absurd (by simp [ha, hd2] :
                (isHeb a && decide ('-' = '-') && decide ('\n' = '\n') && isHeb d) = true) hcond
          exact patternAt_false_of_fourth a '-' '\n' d t hd
  | case3 t h3 =>
    rw [reflow_short t h3]
    exact hasBreak_short t h3

/-! ### Idempotence of the normalizer: line structure lemmas -/

/-- Splitting always yields at least one line. -/
lemma splitOnChar_ne_nil (sep : Char) : ∀ l : List Char, splitOnChar sep l ≠ [] := by
  intro l
  induction l with
  | nil => simp [splitOnChar]
  | cons c cs ih =>
    simp only [splitOnChar]
    by_cases hc : c = sep
    · rw [if_pos hc]; simp
    · rw [if_neg hc]
      rcases hr : splitOnChar sep cs with _ | ⟨t, ts⟩
      · exact absurd hr ih
      · simp

/-- Lines of a split contain no separator. -/
lemma splitOnChar_no_sep_mem (sep : Char) :
    ∀ l : List Char, ∀ line ∈ splitOnChar sep l, sep ∉ line := by
  intro l
  induction l with
  | nil =>
    intro line hl
    simp only [splitOnChar, List.mem_singleton] at hl
    subst hl
    simp
  | cons c cs ih =>
    intro line hl
    simp only [splitOnChar] at hl
    by_cases hc : c = sep
    · rw [if_pos hc] at hl
      rcases List.mem_cons.mp hl with rfl | hl
      · simp
      · exact ih line hl
    · rw [if_neg hc] at hl
      rcases hr : splitOnChar sep cs with _ | ⟨t, ts⟩
      · exact absurd hr (splitOnChar_ne_nil sep cs)
      · rw [hr] at hl
        rcases List.mem_cons.mp hl with rfl | hl
        · intro hmem
          rcases List.mem_cons.mp hmem with rfl | hmem
          · exact hc rfl
          · exact ih t (by rw [hr]; exact List.mem_cons_self _ _) hmem
        · exact ih line (by rw [hr]; exact List.mem_cons_of_mem _ hl)

/-- Joining the split of a text recovers the text. -/
lemma joinLines_splitOnChar : ∀ l : List Char,
    joinLines (splitOnChar '\n' l) = l := by
  intro l
  induction l with
  | nil => rfl
  | cons c cs ih =>
    simp only [splitOnChar]
    by_cases hc : c = '\n'
    · rw [if_pos hc]
      rcases hr : splitOnChar '\n' cs with _ | ⟨t, ts⟩
      · exact absurd hr (splitOnChar_ne_nil '\n' cs)
      · rw [hr] at ih
        subst hc
        simp only [joinLines, List.nil_append]
        rw [ih]
    · rw [if_neg hc]
      rcases hr : splitOnChar '\n' cs with _ | ⟨t, ts⟩
      · exact absurd hr (splitOnChar_ne_nil '\n' cs)
      · rw [hr] at ih
        rcases ts with _ | ⟨u, us⟩
        · simp only [joinLines] at ih ⊢
          rw [ih]
        · simp only [joinLines, List.cons_append] at ih ⊢
          rw [ih]

/-- Splitting the join of newline-free lines recovers the lines. -/
lemma splitOnChar_joinLines : ∀ lls : List (List Char), lls ≠ [] →
    (∀ l' ∈ lls, '\n' ∉ l') →
    splitOnChar '\n' (joinLines lls) = lls := by
  intro lls
  induction lls with
  | nil => intro h _; exact absurd rfl h
  | cons l rest ih =>
    intro _ hmem
    rcases rest with _ | ⟨l2, rest2⟩
    · simp only [joinLines]
      exact splitOnChar_no_sep '\n' l (hmem l (List.mem_cons_self _ _))
    · have hjoin : joinLines (l :: l2 :: rest2) = l ++ '\n' :: joinLines (l2 :: rest2) := rfl
      rw [hjoin, splitOnChar_append '\n' l _ (hmem l (List.mem_cons_self _ _))]
      rw [ih (by simp) fun x hx => hmem x (List.mem_cons_of_mem _ hx)]

/-- spaceOut is preserved under list append. -/
lemma forall₂_spaceOut_append {l₁ l₂ l₁' l₂' : List Char}
    (h₁ : List.Forall₂ spaceOut l₁ l₁') (h₂ : List.Forall₂ spaceOut l₂ l₂') :
    List.Forall₂ spaceOut (l₁ ++ l₂) (l₁' ++ l₂') := by
  induction h₁ with
  | nil => exact h₂
  | cons hab _ ih => exact List.Forall₂.cons hab ih

/-- Blanking dot runs is a pointwise whitespace rewrite. -/
lemma deDotRun_pointwise : ∀ l : List Char, List.Forall₂ spaceOut l (deDotRun l) := by
  intro l
  induction l using deDotRun.induct with
  | case1 a b c rest hcond ih =>
    rw [deDotRun, if_pos hcond]
    exact List.Forall₂.cons (Or.inr rfl)
      (List.Forall₂.cons (Or.inr rfl) (List.Forall₂.cons (Or.inr rfl) ih))
  | case2 a b c rest hcond ih =>
    rw [deDotRun, if_neg hcond]
    exact List.Forall₂.cons (Or.inl rfl) ih
  | case3 t h3 =>
    rw [deDotRun_short t h3]
    exact List.forall₂_same.mpr fun a _ => Or.inl rfl

/-- Overwriting every character with a space is a pointwise rewrite. -/
lemma const_space_pointwise : ∀ l : List Char,
    List.Forall₂ spaceOut l (l.map fun _ => ' ') := by
  intro l
  induction l with
  | nil => exact List.Forall₂.nil
  | cons c cs ih => exact List.Forall₂.cons (Or.inr rfl) ih

/-- Blanking a whole line is a pointwise whitespace rewrite. -/
lemma stripLine_pointwise (l : List Char) : List.Forall₂ spaceOut l (stripLine l) := by
  unfold stripLine
  split
  · exact const_space_pointwise l
  · exact deDotRun_pointwise l

/-- Joining pointwise-rewritten lines is a pointwise rewrite. -/
lemma joinLines_pointwise :
    ∀ {lls lls' : List (List Char)},
      List.Forall₂ (List.Forall₂ spaceOut) lls lls' →
      List.Forall₂ spaceOut (joinLines lls) (joinLines lls') := by
  intro lls lls' h
  induction h with
  | nil => exact List.Forall₂.nil
  | @cons l l' rest rest' hll hrest ih =>
    rcases hrest with _ | @⟨l₂, l₂', rest₂, rest₂', h₂, hrest₂⟩
    · simpa [joinLines] using hll
    · have hj : joinLines (l :: l₂ :: rest₂) = l ++ '\n' :: joinLines (l₂ :: rest₂) := rfl
      have hj' : joinLines (l' :: l₂' :: rest₂') = l' ++ '\n' :: joinLines (l₂' :: rest₂') := rfl
      rw [hj, hj']
      exact forall₂_spaceOut_append hll
        (List.Forall₂.cons (Or.inl rfl) ih)

/-- Step 3 as a whole is a pointwise whitespace rewrite. -/
lemma stripPagination_pointwise (l : List Char) :
    List.Forall₂ spaceOut l (stripPagination l) := by
  unfold stripPagination
  have hmap : List.Forall₂ (List.Forall₂ spaceOut) (splitOnChar '\n' l)
      ((splitOnChar '\n' l).map stripLine) := by
    induction splitOnChar '\n' l with
    | nil => exact List.Forall₂.nil
    | cons x xs ih => exact List.Forall₂.cons (stripLine_pointwise x) ih
  have := joinLines_pointwise hmap
  rwa [joinLines_splitOnChar l] at this

/-- A Hebrew letter is not a space. -/
lemma heb_ne_space {c : Char} (h : isHeb c = true) : c ≠ ' ' := by
  intro hc
  rw [hc] at h
  exact absurd h (by decide)

/-- Wrap-freeness transfers along pointwise whitespace rewrites (no wrap
pattern character is a space). -/
lemma hasBreak_pointwise_aux :
    ∀ (n : ℕ) (l l' : List Char), l'.length ≤ n →
      List.Forall₂ spaceOut l l' → hasBreak l = false → hasBreak l' = false := by
  intro n
  induction n with
  | zero =>
    intro l l' hlen hf _
    rcases l' with _ | ⟨b, l₀'⟩
    · rfl
    · simp at hlen
  | succ n ih =>
    intro l l' hlen hf hb
    rcases hf with _ | @⟨a, b, l₀, l₀', hab, hrest⟩
    · rfl
    · rw [hasBreak, Bool.or_eq_false_iff] at hb ⊢
      refine ⟨?_, ih l₀ l₀' (by simpa using Nat.le_of_succ_le_succ hlen) hrest hb.2⟩
      rcases hp : patternAt (b :: l₀') with _ | _
      · rfl
      · exfalso
        rcases l₀' with _ | ⟨y₂, _ | ⟨y₃, _ | ⟨y₄, m'⟩⟩⟩
        · exact absurd hp (by simp [patternAt])
        · exact absurd hp (by simp [patternAt])
        · exact absurd hp (by simp [patternAt])
        · rw [patternAt] at hp
          simp only [Bool.and_eq_true, decide_eq_true_eq] at hp
          obtain ⟨⟨⟨hhb, h2⟩, h3⟩, h4⟩ := hp
          rcases hrest with _ | @⟨x₂, _, l₁, _, hx₂, hrest₂⟩
          rcases hrest₂ with _ | @⟨x₃, _, l₂, _, hx₃, hrest₃⟩
          rcases hrest₃ with _ | @⟨x₄, _, l₃, _, hx₄, _⟩
          have hb2 : b = a := by
            rcases hab with h | h
            · exact h
            · exact absurd h (heb_ne_space hhb)
          have hy₂ : y₂ = x₂ := by
            rcases hx₂ with h | h
            · exact h
            · rw [h] at h2; exact absurd h2 (by decide)
          have hy₃ : y₃ = x₃ := by
            rcases hx₃ with h | h
            · exact h
            · rw [h] at h3; exact absurd h3 (by decide)
          have hy₄ : y₄ = x₄ := by
            rcases hx₄ with h | h
            · exact h
            · exact absurd h (heb_ne_space h4)
          have : patternAt (a :: x₂ :: x₃ :: x₄ :: l₃) = true := by
            rw [patternAt]
            subst hb2 hy₂ hy₃ hy₄
            simp [hhb, h2, h3, h4]
          rw [this] at hb
          exact absurd hb.1 (by simp)

/-- Wrap-freeness transfers along step 3. -/
lemma hasBreak_stripPagination (l : List Char) (h : hasBreak l = false) :
    hasBreak (stripPagination l) = false :=
  hasBreak_pointwise_aux (stripPagination l).length l (stripPagination l) le_rfl
    (stripPagination_pointwise l) h

/-! ### Idempotence of the normalizer: chapter-space repair structure -/

/-- Repair walks over a head that is not the chapter keyword's first
letter. -/
lemma fixChapterSpace_cons_ne_fst (a : Char) (l : List Char) (h : a ≠ 'פ') :
    fixChapterSpace (a :: l) = a :: fixChapterSpace l := by
  rcases l with _ | ⟨b, _ | ⟨c, _ | ⟨d, tl⟩⟩⟩
  · rfl
  · rfl
  · rfl
  · rw [fixChapterSpace, if_neg (by simp [h])]

/-- Repair walks over a pair whose second letter breaks the keyword. -/
lemma fixChapterSpace_cons_ne_snd (a b : Char) (l : List Char) (h : b ≠ 'ר') :
    fixChapterSpace (a :: b :: l) = a :: fixChapterSpace (b :: l) := by
  rcases l with _ | ⟨c, _ | ⟨d, tl⟩⟩
  · rfl
  · rfl
  · rw [fixChapterSpace, if_neg (by simp [h])]

/-- Repair walks over a triple whose third letter breaks the keyword. -/
lemma fixChapterSpace_cons_ne_third (a b c : Char) (l : List Char) (h : c ≠ 'ק') :
    fixChapterSpace (a :: b :: c :: l) = a :: fixChapterSpace (b :: c :: l) := by
  rcases l with _ | ⟨d, tl⟩
  · rfl
  · rw [fixChapterSpace, if_neg (by simp [h])]

/-- Repair walks over a window whose fourth character is not a digit. -/
lemma fixChapterSpace_cons_not_digit (a b c d : Char) (l : List Char)
    (h : d.isDigit = false) :
    fixChapterSpace (a :: b :: c :: d :: l) = a :: fixChapterSpace (b :: c :: d :: l) := by
  rw [fixChapterSpace, if_neg (by simp [h])]

/-- Repair preserves the first three characters. -/
lemma fixChapterSpace_three_heads :
    ∀ l : List Char, ∀ x y z rest, l = x :: y :: z :: rest →
      ∃ t, fixChapterSpace l = x :: y :: z :: t := by
  intro l
  induction l using fixChapterSpace.induct with
  | case1 a b c d tail hcond ih =>
    intro x y z rest he
    injection he with h1 he; injection he with h2 he; injection he with h3 he
    subst h1; subst h2; subst h3
    exact ⟨' ' :: fixChapterSpace (d :: tail), by rw [fixChapterSpace, if_pos hcond]⟩
  | case2 a b c d tail hcond ih =>
    intro x y z rest he
    injection he with h1 he; injection he with h2 he; injection he with h3 he
    subst h1; subst h2; subst h3
    obtain ⟨t, ht⟩ := ih b c d tail rfl
    exact ⟨d :: t, by rw [fixChapterSpace, if_neg hcond, ht]⟩
  | case3 t h3 =>
    intro x y z rest he
    subst he
    rcases rest with _ | ⟨w, rest'⟩
    · exact ⟨[], rfl⟩
    · exact absurd rfl (h3 x y z w rest')

/-- Repair keeps all original characters. -/
lemma mem_of_mem_fixChapterSpace_src : ∀ l : List Char, ∀ c ∈ l, c ∈ fixChapterSpace l := by
  intro l
  induction l using fixChapterSpace.induct with
  | case1 a b c d tail hcond ih =>
    intro x hx
    rw [fixChapterSpace, if_pos hcond]
    simp only [List.mem_cons] at hx ⊢
    rcases hx with rfl | rfl | rfl | hx
    · tauto
    · tauto
    · tauto
    · have := ih x (by simpa using hx)
      simp only [List.mem_cons] at this
      tauto
  | case2 a b c d tail hcond ih =>
    intro x hx
    rw [fixChapterSpace, if_neg hcond]
    simp only [List.mem_cons] at hx ⊢
    rcases hx with rfl | hx
    · tauto
    · have := ih x (by simpa using hx)
      simp only [List.mem_cons] at this
      tauto
  | case3 t h3 =>
    intro x hx
    rw [fixChapterSpace_short t h3]
    exact hx

/-- Repair never crosses a newline: it distributes over the first line
boundary. -/
lemma fixChapterSpace_append_newline :
    ∀ (n : ℕ) (line rest : List Char), line.length ≤ n → '\n' ∉ line →
      fixChapterSpace (line ++ '\n' :: rest) =
        fixChapterSpace line ++ '\n' :: fixChapterSpace rest := by
  intro n
  induction n with
  | zero =>
    intro line rest hlen _
    rcases line with _ | ⟨x, line'⟩
    · simp only [List.nil_append]
      rw [fixChapterSpace_cons_ne_fst '\n' rest (by decide)]
      rfl
    · simp at hlen
  | succ n ih =>
    intro line rest hlen hnl
    rcases line with _ | ⟨x, line'⟩
    · simp only [List.nil_append]
      rw [fixChapterSpace_cons_ne_fst '\n' rest (by decide)]
      rfl
    · have hlen' : line'.length ≤ n := by simpa using Nat.le_of_succ_le_succ hlen
      have hnl' : '\n' ∉ line' := fun h => hnl (List.mem_cons_of_mem x h)
      have hxn : x ≠ '\n' := fun h => hnl (h ▸ List.mem_cons_self x line')
      by_cases hx : x = 'פ'
      · subst hx
        rcases line' with _ | ⟨y, line''⟩
        · rw [List.cons_append, List.nil_append,
            fixChapterSpace_cons_ne_snd 'פ' '\n' rest (by decide),
            fixChapterSpace_cons_ne_fst '\n' rest (by decide)]
          rfl
        · by_cases hy : y = 'ר'
          · subst hy
            rcases line'' with _ | ⟨z, line₃⟩
            · rw [List.cons_append, List.cons_append, List.nil_append,
                fixChapterSpace_cons_ne_third 'פ' 'ר' '\n' rest (by decide),
                fixChapterSpace_cons_ne_snd 'ר' '\n' rest (by decide),
                fixChapterSpace_cons_ne_fst '\n' rest (by decide)]
              rfl
            · by_cases hz : z = 'ק'
              · subst hz
                rcases line₃ with _ | ⟨w, line₄⟩
                · rw [List.cons_append, List.cons_append, List.cons_append, List.nil_append,
                    fixChapterSpace_cons_not_digit 'פ' 'ר' 'ק' '\n' rest (by decide),
                    fixChapterSpace_cons_ne_third 'ר' 'ק' '\n' rest (by decide),
                    fixChapterSpace_cons_ne_snd 'ק' '\n' rest (by decide),
                    fixChapterSpace_cons_ne_fst '\n' rest (by decide)]
                  rfl
                · by_cases hw : w.isDigit
                  · have hline4 : (w :: line₄).length ≤ n := by
                      simp only [List.length_cons] at hlen ⊢
                      omega
                    have hnlw : '\n' ∉ w :: line₄ := by
                      intro h
                      apply hnl'
                      simp only [List.mem_cons] at h ⊢
                      tauto
                    have hihw := ih (w :: line₄) rest hline4 hnlw
                    have hl : ('פ' :: 'ר' :: 'ק' :: w :: line₄) ++ '\n' :: rest =
                        'פ' :: 'ר' :: 'ק' :: w :: (line₄ ++ '\n' :: rest) := rfl
                    rw [hl, fixChapterSpace, if_pos (by simp [hw]),
                      fixChapterSpace, if_pos (by simp [hw])]
                    rw [show w :: (line₄ ++ '\n' :: rest) =
                      (w :: line₄) ++ '\n' :: rest from rfl, hihw]
                    rfl
                  · rw [show ('פ' :: 'ר' :: 'ק' :: w :: line₄) ++ '\n' :: rest =
                        'פ' :: 'ר' :: 'ק' :: w :: (line₄ ++ '\n' :: rest) from rfl,
                      fixChapterSpace_cons_not_digit 'פ' 'ר' 'ק' w _
                        (Bool.eq_false_iff.mpr hw),
                      fixChapterSpace_cons_not_digit 'פ' 'ר' 'ק' w _
                        (Bool.eq_false_iff.mpr hw)]
                    rw [show 'ר' :: 'ק' :: w :: (line₄ ++ '\n' :: rest) =
                        ('ר' :: 'ק' :: w :: line₄) ++ '\n' :: rest from rfl]
                    rw [ih ('ר' :: 'ק' :: w :: line₄) rest (by simpa using hlen')
                      (fun h => hnl' h)]
                    rfl
              · rw [show ('פ' :: 'ר' :: z :: line₃) ++ '\n' :: rest =
                    'פ' :: 'ר' :: z :: (line₃ ++ '\n' :: rest) from rfl,
                  fixChapterSpace_cons_ne_third 'פ' 'ר' z _ hz,
                  fixChapterSpace_cons_ne_third 'פ' 'ר' z _ hz]
                rw [show 'ר' :: z :: (line₃ ++ '\n' :: rest) =
                    ('ר' :: z :: line₃) ++ '\n' :: rest from rfl]
                rw [ih ('ר' :: z :: line₃) rest (by simpa using hlen') (fun h => hnl' h)]
                rfl
          · rw [show ('פ' :: y :: line'') ++ '\n' :: rest =
                'פ' :: y :: (line'' ++ '\n' :: rest) from rfl,
              fixChapterSpace_cons_ne_snd 'פ' y _ hy,
              fixChapterSpace_cons_ne_snd 'פ' y _ hy]
            rw [show y :: (line'' ++ '\n' :: rest) = (y :: line'') ++ '\n' :: rest from rfl]
            rw [ih (y :: line'') rest (by simpa using hlen') hnl']
            rfl
      · rw [List.cons_append, fixChapterSpace_cons_ne_fst x _ hx,
          fixChapterSpace_cons_ne_fst x _ hx, ih line' rest hlen' hnl']
        rfl

/-! ### Idempotence of the normalizer: glue, dot-run and page-line facts -/

/-- Shape-insensitive form of the wrap pattern test. -/
lemma patternAt_cons4 (a b c d : Char) (l : List Char) :
    patternAt (a :: b :: c :: d :: l) =
      (isHeb a && decide (b = '-') && decide (c = '\n') && isHeb d) := rfl

/-- Shape-insensitive form of the glue test. -/
lemma glueAt_cons4 (a b c d : Char) (l : List Char) :
    glueAt (a :: b :: c :: d :: l) =
      (decide (a = 'פ') && decide (b = 'ר') && decide (c = 'ק') && d.isDigit) := rfl

/-- Shape-insensitive form of the dot-run test. -/
lemma tripleDotAt_cons3 (a b c : Char) (l : List Char) :
    tripleDotAt (a :: b :: c :: l) =
      (decide (a = '.') && decide (b = '.') && decide (c = '.')) := rfl

/-- No glue starts at a character other than the keyword's first letter. -/
lemma glueAt_false_of_fst (a : Char) (l : List Char) (h : a ≠ 'פ') :
    glueAt (a :: l) = false := by
  rcases l with _ | ⟨b, _ | ⟨c, _ | ⟨d, tl⟩⟩⟩
  · rfl
  · rfl
  · rfl
  · rw [glueAt_cons4]; simp [h]

/-- No glue has a non-digit fourth character. -/
lemma glueAt_false_of_fourth (a b c d : Char) (l : List Char) (h : d.isDigit = false) :
    glueAt (a :: b :: c :: d :: l) = false := by
  rw [glueAt_cons4]; simp [h]

/-- A list of fewer than four characters has no glue. -/
lemma hasGlue_short (t : List Char)
    (h : ∀ (a b c d : Char) (tail : List Char), t = a :: b :: c :: d :: tail → False) :
    hasGlue t = false := by
  rcases t with _ | ⟨a, _ | ⟨b, _ | ⟨c, _ | ⟨d, tl⟩⟩⟩⟩
  · rfl
  · rfl
  · rfl
  · rfl
  · exact absurd rfl (h a b c d tl)

/-- Repair is the identity on glue-free text. -/
lemma fixChapterSpace_eq_self : ∀ l : List Char, hasGlue l = false →
    fixChapterSpace l = l := by
  intro l
  induction l using fixChapterSpace.induct with
  | case1 a b c d tail hcond ih =>
    intro h
    rw [hasGlue, Bool.or_eq_false_iff] at h
    have hg : glueAt (a :: b :: c :: d :: tail) = true := by
      rw [glueAt_cons4]; exact hcond
    rw [hg] at h
    exact absurd h.1 (by simp)
  | case2 a b c d tail hcond ih =>
    intro h
    rw [hasGlue, Bool.or_eq_false_iff] at h
    rw [fixChapterSpace, if_neg hcond, ih h.2]
  | case3 t h3 =>
    intro _
    exact fixChapterSpace_short t h3

/-- Repaired text is glue-free. -/
lemma hasGlue_fixChapterSpace : ∀ l : List Char, hasGlue (fixChapterSpace l) = false := by
  intro l
  induction l using fixChapterSpace.induct with
  | case1 a b c d tail hcond ih =>
    rw [fixChapterSpace, if_pos hcond]
    have ha : a = 'פ' ∧ b = 'ר' ∧ c = 'ק' := by
      simp only [Bool.and_eq_true, decide_eq_true_eq] at hcond
      exact ⟨hcond.1.1.1, hcond.1.1.2, hcond.1.2⟩
    obtain ⟨rfl, rfl, rfl⟩ := ha
    rw [hasGlue, Bool.or_eq_false_iff]
    refine ⟨glueAt_false_of_fourth _ _ _ ' ' _ (by decide), ?_⟩
    rw [hasGlue, Bool.or_eq_false_iff]
    refine ⟨glueAt_false_of_fst 'ר' _ (by decide), ?_⟩
    rw [hasGlue, Bool.or_eq_false_iff]
    refine ⟨glueAt_false_of_fst 'ק' _ (by decide), ?_⟩
    rw [hasGlue, Bool.or_eq_false_iff]
    exact ⟨glueAt_false_of_fst ' ' _ (by decide), ih⟩
  | case2 a b c d tail hcond ih =>
    rw [fixChapterSpace, if_neg hcond]
    obtain ⟨t, ht⟩ := fixChapterSpace_three_heads (b :: c :: d :: tail) b c d tail rfl
    rw [ht, hasGlue, Bool.or_eq_false_iff]
    refine ⟨?_, by rw [← ht]; exact ih⟩
    rw [glueAt_cons4]
    rcases hg : (decide (a = 'פ') && decide (b = 'ר') && decide (c = 'ק') && d.isDigit) with _ | _
    · rfl
    · exact absurd hg hcond
  | case3 t h3 =>
    rw [fixChapterSpace_short t h3]
    exact hasGlue_short t h3

/-- Wrap-freeness is preserved by repair. -/
lemma hasBreak_fixChapterSpace : ∀ l : List Char, hasBreak l = false →
    hasBreak (fixChapterSpace l) = false := by
  intro l
  induction l using fixChapterSpace.induct with
  | case1 a b c d tail hcond ih =>
    intro h
    rw [fixChapterSpace, if_pos hcond]
    have ha : a = 'פ' ∧ b = 'ר' ∧ c = 'ק' := by
      simp only [Bool.and_eq_true, decide_eq_true_eq] at hcond
      exact ⟨hcond.1.1.1, hcond.1.1.2, hcond.1.2⟩
    obtain ⟨rfl, rfl, rfl⟩ := ha
    rw [hasBreak, Bool.or_eq_false_iff] at h
    have h2 := h.2
    rw [hasBreak, Bool.or_eq_false_iff] at h2
    have h3 := h2.2
    rw [hasBreak, Bool.or_eq_false_iff] at h3
    have h4 := h3.2
    rw [hasBreak, Bool.or_eq_false_iff]
    refine ⟨patternAt_false_of_snd 'פ' 'ר' _ (by decide), ?_⟩
    rw [hasBreak, Bool.or_eq_false_iff]
    refine ⟨patternAt_false_of_snd 'ר' 'ק' _ (by decide), ?_⟩
    rw [hasBreak, Bool.or_eq_false_iff]
    refine ⟨patternAt_false_of_snd 'ק' ' ' _ (by decide), ?_⟩
    rw [hasBreak, Bool.or_eq_false_iff]
    exact ⟨patternAt_false_of_fst ' ' _ (by decide), ih h4⟩
  | case2 a b c d tail hcond ih =>
    intro h
    rw [fixChapterSpace, if_neg hcond]
    rw [hasBreak, Bool.or_eq_false_iff] at h
    obtain ⟨t, ht⟩ := fixChapterSpace_three_heads (b :: c :: d :: tail) b c d tail rfl
    rw [ht, hasBreak, Bool.or_eq_false_iff]
    refine ⟨?_, by rw [← ht]; exact ih h.2⟩
    rw [patternAt_cons4]
    have h1 := h.1
    rw [patternAt_cons4] at h1
    exact h1
  | case3 t h3 =>
    intro h
    rw [fixChapterSpace_short t h3]
    exact h

/-! ### Idempotence of the normalizer: dot-run and page-line preservation -/

/-- No dot run starts at a non-dot. -/
lemma tripleDotAt_false_of_fst (a : Char) (l : List Char) (h : a ≠ '.') :
    tripleDotAt (a :: l) = false := by
  rcases l with _ | ⟨b, _ | ⟨c, tl⟩⟩
  · rfl
  · rfl
  · rw [tripleDotAt_cons3]; simp [h]

/-- No dot run has a non-dot second character. -/
lemma tripleDotAt_false_of_snd (a b : Char) (l : List Char) (h : b ≠ '.') :
    tripleDotAt (a :: b :: l) = false := by
  rcases l with _ | ⟨c, tl⟩
  · rfl
  · rw [tripleDotAt_cons3]; simp [h]

/-- No dot run has a non-dot third character. -/
lemma tripleDotAt_false_of_third (a b c : Char) (l : List Char) (h : c ≠ '.') :
    tripleDotAt (a :: b :: c :: l) = false := by
  rw [tripleDotAt_cons3]; simp [h]

/-- A list of fewer than three characters has no dot run. -/
lemma hasTripleDot_short (t : List Char)
    (h : ∀ (a b c : Char) (tail : List Char), t = a :: b :: c :: tail → False) :
    hasTripleDot t = false := by
  rcases t with _ | ⟨a, _ | ⟨b, _ | ⟨c, tl⟩⟩⟩
  · rfl
  · rfl
  · rfl
  · exact absurd rfl (h a b c tl)

/-- Blanking walks over a non-dot head. -/
lemma deDotRun_cons_ne_dot (a : Char) (l : List Char) (h : a ≠ '.') :
    deDotRun (a :: l) = a :: deDotRun l := by
  rcases l with _ | ⟨b, _ | ⟨c, tl⟩⟩
  · rfl
  · rfl
  · rw [deDotRun, if_neg (by simp [h])]

/-- Blanking walks over a dot followed by a non-dot. -/
lemma deDotRun_dot_ne (c : Char) (l : List Char) (h : c ≠ '.') :
    deDotRun ('.' :: c :: l) = '.' :: c :: deDotRun l := by
  rcases l with _ | ⟨r, lr⟩
  · rfl
  · rw [deDotRun, if_neg (by simp [h]), deDotRun_cons_ne_dot c _ h]

/-- Blanked lines have no dot runs. -/
lemma hasTripleDot_deDotRun : ∀ l : List Char, hasTripleDot (deDotRun l) = false := by
  intro l
  induction l using deDotRun.induct with
  | case1 a b c rest hcond ih =>
    rw [deDotRun, if_pos hcond]
    rw [hasTripleDot, Bool.or_eq_false_iff]
    refine ⟨tripleDotAt_false_of_fst ' ' _ (by decide), ?_⟩
    rw [hasTripleDot, Bool.or_eq_false_iff]
    refine ⟨tripleDotAt_false_of_fst ' ' _ (by decide), ?_⟩
    rw [hasTripleDot, Bool.or_eq_false_iff]
    exact ⟨tripleDotAt_false_of_fst ' ' _ (by decide), ih⟩
  | case2 a b c rest hcond ih =>
    rw [deDotRun, if_neg hcond]
    rw [hasTripleDot, Bool.or_eq_false_iff]
    refine ⟨?_, ih⟩
    by_cases ha : a = '.'
    · subst ha
      by_cases hb : b = '.'
      · subst hb
        have hc : c ≠ '.' := by
          intro hc
          subst hc
          exact hcond (by decide)
        rw [deDotRun_dot_ne c rest hc]
        exact tripleDotAt_false_of_third '.' '.' c _ hc
      · rw [deDotRun_cons_ne_dot b _ hb]
        exact tripleDotAt_false_of_snd '.' b _ hb
    · exact tripleDotAt_false_of_fst a _ ha
  | case3 t h3 =>
    rw [deDotRun_short t h3]
    exact hasTripleDot_short t h3

/-- Blanking is the identity on dot-run-free lines. -/
lemma deDotRun_eq_self : ∀ l : List Char, hasTripleDot l = false → deDotRun l = l := by
  intro l
  induction l using deDotRun.induct with
  | case1 a b c rest hcond ih =>
    intro h
    rw [hasTripleDot, Bool.or_eq_false_iff] at h
    have : tripleDotAt (a :: b :: c :: rest) = true := by
      rw [tripleDotAt_cons3]; exact hcond
    rw [this] at h
    exact absurd h.1 (by simp)
  | case2 a b c rest hcond ih =>
    intro h
    rw [hasTripleDot, Bool.or_eq_false_iff] at h
    rw [deDotRun, if_neg hcond, ih h.2]
  | case3 t h3 =>
    intro _
    exact deDotRun_short t h3

/-- Dot-run-freeness is preserved by repair. -/
lemma hasTripleDot_fixChapterSpace : ∀ l : List Char, hasTripleDot l = false →
    hasTripleDot (fixChapterSpace l) = false := by
  intro l
  induction l using fixChapterSpace.induct with
  | case1 a b c d tail hcond ih =>
    intro h
    rw [fixChapterSpace, if_pos hcond]
    have ha : a = 'פ' ∧ b = 'ר' ∧ c = 'ק' := by
      simp only [Bool.and_eq_true, decide_eq_true_eq] at hcond
      exact ⟨hcond.1.1.1, hcond.1.1.2, hcond.1.2⟩
    obtain ⟨rfl, rfl, rfl⟩ := ha
    rw [hasTripleDot, Bool.or_eq_false_iff] at h
    have h2 := h.2
    rw [hasTripleDot, Bool.or_eq_false_iff] at h2
    have h3 := h2.2
    rw [hasTripleDot, Bool.or_eq_false_iff] at h3
    rw [hasTripleDot, Bool.or_eq_false_iff]
    refine ⟨tripleDotAt_false_of_fst 'פ' _ (by decide), ?_⟩
    rw [hasTripleDot, Bool.or_eq_false_iff]
    refine ⟨tripleDotAt_false_of_fst 'ר' _ (by decide), ?_⟩
    rw [hasTripleDot, Bool.or_eq_false_iff]
    refine ⟨tripleDotAt_false_of_fst 'ק' _ (by decide), ?_⟩
    rw [hasTripleDot, Bool.or_eq_false_iff]
    exact ⟨tripleDotAt_false_of_fst ' ' _ (by decide), ih h3.2⟩
  | case2 a b c d tail hcond ih =>
    intro h
    rw [fixChapterSpace, if_neg hcond]
    rw [hasTripleDot, Bool.or_eq_false_iff] at h
    obtain ⟨t, ht⟩ := fixChapterSpace_three_heads (b :: c :: d :: tail) b c d tail rfl
    rw [ht, hasTripleDot, Bool.or_eq_false_iff]
    refine ⟨?_, by rw [← ht]; exact ih h.2⟩
    rw [tripleDotAt_cons3]
    have h1 := h.1
    rw [tripleDotAt_cons3] at h1
    exact h1
  | case3 t h3 =>
    intro h
    rw [fixChapterSpace_short t h3]
    exact h

/-! ### Idempotence of the normalizer: page-line and line-wise fixed points -/

/-- An all-spaces line is not a page number. -/
lemma isPageNumLine_map_space (l : List Char) :
    isPageNumLine (l.map fun _ => ' ') = false := by
  rcases l with _ | ⟨c, cs⟩
  · rfl
  · simp [isPageNumLine]

/-- All-digit lines transfer backwards along pointwise whitespace
rewrites. -/
lemma isPageNumLine_pointwise {l l' : List Char}
    (hf : List.Forall₂ spaceOut l l') (h : isPageNumLine l' = true) :
    isPageNumLine l = true := by
  unfold isPageNumLine at h ⊢
  simp only [Bool.and_eq_true, List.all_eq_true, Bool.not_eq_true'] at h ⊢
  obtain ⟨hne, hall⟩ := h
  constructor
  · have hlen := hf.length_eq
    rcases l with _ | ⟨c, cs⟩
    · rcases l' with _ | ⟨c', cs'⟩
      · simp at hne
      · simp at hlen
    · rfl
  · intro c hc
    clear hne
    induction hf with
    | nil => exact absurd hc (by simp)
    | cons hab hrest ih =>
      rcases List.mem_cons.mp hc with rfl | hc2
      · rcases hab with h | h
        · have := hall _ (List.mem_cons_self _ _)
          rwa [h] at this
        · have := hall _ (List.mem_cons_self _ _)
          rw [h] at this
          exact absurd this (by decide)
      · exact ih (fun x hx => hall x (List.mem_cons_of_mem _ hx)) hc2

/-- One stripped line is never a page-number line. -/
lemma isPageNumLine_stripLine (l : List Char) :
    isPageNumLine (stripLine l) = false := by
  unfold stripLine
  split
  · exact isPageNumLine_map_space l
  · rcases hp : isPageNumLine (deDotRun l) with _ | _
    · rfl
    · have := isPageNumLine_pointwise (deDotRun_pointwise l) hp
      simp_all

/-- An all-spaces line has no dot runs. -/
lemma hasTripleDot_map_space : ∀ l : List Char,
    hasTripleDot (l.map fun _ => ' ') = false := by
  intro l
  induction l with
  | nil => rfl
  | cons c cs ih =>
    simp only [List.map_cons]
    rw [hasTripleDot, Bool.or_eq_false_iff]
    exact ⟨tripleDotAt_false_of_fst ' ' _ (by decide), ih⟩

/-- One stripped line has no dot runs. -/
lemma hasTripleDot_stripLine (l : List Char) :
    hasTripleDot (stripLine l) = false := by
  unfold stripLine
  split
  · exact hasTripleDot_map_space l
  · exact hasTripleDot_deDotRun l

/-- Repair preserves non-page-ness of a line. -/
lemma isPageNumLine_fixChapterSpace (l : List Char) (h : isPageNumLine l = false) :
    isPageNumLine (fixChapterSpace l) = false := by
  rcases hp : isPageNumLine (fixChapterSpace l) with _ | _
  · rfl
  · exfalso
    unfold isPageNumLine at hp h
    simp only [Bool.and_eq_true, List.all_eq_true, Bool.not_eq_true'] at hp
    obtain ⟨hne, hall⟩ := hp
    rcases hl : l with _ | ⟨c, cs⟩
    · subst hl
      exact absurd hne (by decide)
    · subst hl
      rw [Bool.and_eq_false_iff] at h
      rcases h with h | h
      · simp at h
      · rw [List.all_eq_false] at h
        obtain ⟨x, hx, hxd⟩ := h
        exact hxd (hall x (mem_of_mem_fixChapterSpace_src _ x hx))

/-- Stripping a line is the identity when it is neither a page number nor
contains a dot run. -/
lemma stripLine_eq_self (l : List Char) (hp : isPageNumLine l = false)
    (ht : hasTripleDot l = false) : stripLine l = l := by
  unfold stripLine
  rw [if_neg (by simp [hp]), deDotRun_eq_self l ht]

/-- Mapping a function that fixes every element is the identity. -/
lemma map_fixed {α : Type} (f : α → α) :
    ∀ l : List α, (∀ x ∈ l, f x = x) → l.map f = l := by
  intro l
  induction l with
  | nil => intro _; rfl
  | cons x xs ih =>
    intro h
    simp only [List.map_cons]
    rw [h x (List.mem_cons_self _ _), ih fun y hy => h y (List.mem_cons_of_mem _ hy)]

/-- Repair distributes over joined newline-free lines. -/
lemma fixChapterSpace_joinLines :
    ∀ lls : List (List Char), (∀ l' ∈ lls, '\n' ∉ l') →
      fixChapterSpace (joinLines lls) = joinLines (lls.map fixChapterSpace) := by
  intro lls
  induction lls with
  | nil => intro _; rfl
  | cons l rest ih =>
    intro h
    rcases rest with _ | ⟨l2, rest2⟩
    · rfl
    · have hj : joinLines (l :: l2 :: rest2) = l ++ '\n' :: joinLines (l2 :: rest2) := rfl
      rw [hj, fixChapterSpace_append_newline l.length l _ le_rfl
        (h l (List.mem_cons_self _ _))]
      rw [ih fun x hx => h x (List.mem_cons_of_mem _ hx)]
      rfl

/-! ### Idempotence of the normalizer: assembly -/

/-- Stripped lines stay newline-free. -/
lemma stripLine_no_newline (l : List Char) (h : '\n' ∉ l) : '\n' ∉ stripLine l := by
  intro hm
  rcases mem_stripLine l '\n' hm with h2 | h2
  · exact h h2
  · exact absurd h2 (by decide)

/-- Repaired lines stay newline-free. -/
lemma fixChapterSpace_no_newline (l : List Char) (h : '\n' ∉ l) :
    '\n' ∉ fixChapterSpace l := by
  intro hm
  rcases mem_fixChapterSpace l '\n' hm with h2 | h2
  · exact h h2
  · exact absurd h2 (by decide)

/-- Pagination stripping is the identity on repaired stripped text. -/
lemma stripPagination_fixChapterSpace_stripPagination (r : List Char) :
    stripPagination (fixChapterSpace (stripPagination r)) =
      fixChapterSpace (stripPagination r) := by
  have hnl : ∀ line ∈ splitOnChar '\n' r, '\n' ∉ line :=
    splitOnChar_no_sep_mem '\n' r
  have hnl₂ : ∀ l' ∈ (splitOnChar '\n' r).map stripLine, '\n' ∉ l' := by
    intro l' hl'
    rcases List.mem_map.mp hl' with ⟨l₀, hl₀, rfl⟩
    exact stripLine_no_newline l₀ (hnl l₀ hl₀)
  have hcomm : fixChapterSpace (stripPagination r) =
      joinLines (((splitOnChar '\n' r).map stripLine).map fixChapterSpace) := by
    unfold stripPagination
    exact fixChapterSpace_joinLines _ hnl₂
  have hnl₃ : ∀ l' ∈ ((splitOnChar '\n' r).map stripLine).map fixChapterSpace,
      '\n' ∉ l' := by
    intro l' hl'
    rcases List.mem_map.mp hl' with ⟨l₀, hl₀, rfl⟩
    exact fixChapterSpace_no_newline l₀ (hnl₂ l₀ hl₀)
  have hne : ((splitOnChar '\n' r).map stripLine).map fixChapterSpace ≠ [] := by
    intro h
    simp only [List.map_eq_nil_iff] at h
    exact splitOnChar_ne_nil '\n' r h
  rw [hcomm]
  unfold stripPagination
  rw [splitOnChar_joinLines _ hne hnl₃]
  rw [map_fixed stripLine _ ?_]
  intro l' hl'
  rcases List.mem_map.mp hl' with ⟨l₀, hl₀, rfl⟩
  rcases List.mem_map.mp hl₀ with ⟨l₁, _, rfl⟩
  exact stripLine_eq_self _
    (isPageNumLine_fixChapterSpace _ (isPageNumLine_stripLine l₁))
    (hasTripleDot_fixChapterSpace _ (hasTripleDot_stripLine l₁))

/-- Claim C7: The text normalizer is idempotent: normalizing twice equals
normalizing once, for every input string. -/
theorem normalize_idempotent (x : String) :
    normalize (normalize x) = normalize x := by
  unfold normalize
  show String.mk (fixChapterSpace (stripPagination (reflow (unifyChars
      (fixChapterSpace (stripPagination (reflow (unifyChars x.toList)))))))) =
    String.mk (fixChapterSpace (stripPagination (reflow (unifyChars x.toList))))
  have hCF : ∀ c ∈ fixChapterSpace (stripPagination (reflow (unifyChars x.toList))),
      canonChar c = c := by
    intro c hc
    rcases mem_fixChapterSpace _ c hc with hc2 | rfl
    · rcases mem_stripPagination _ c hc2 with hc3 | rfl | rfl
      · exact unifyChars_fixed x.toList c (mem_reflow _ c hc3)
      · decide
      · decide
    · decide
  have h1 : unifyChars (fixChapterSpace (stripPagination (reflow (unifyChars x.toList)))) =
      fixChapterSpace (stripPagination (reflow (unifyChars x.toList))) :=
    unifyChars_eq_self _ hCF
  have hB : hasBreak (fixChapterSpace (stripPagination (reflow (unifyChars x.toList)))) =
      false :=
    hasBreak_fixChapterSpace _
      (hasBreak_stripPagination _ (hasBreak_reflow (unifyChars x.toList)))
  have h2 : reflow (fixChapterSpace (stripPagination (reflow (unifyChars x.toList)))) =
      fixChapterSpace (stripPagination (reflow (unifyChars x.toList))) :=
    reflow_eq_self _ hB
  have h3 : stripPagination (fixChapterSpace (stripPagination (reflow (unifyChars x.toList)))) =
      fixChapterSpace (stripPagination (reflow (unifyChars x.toList))) :=
    stripPagination_fixChapterSpace_stripPagination _
  have h4 : fixChapterSpace (fixChapterSpace (stripPagination (reflow (unifyChars x.toList)))) =
      fixChapterSpace (stripPagination (reflow (unifyChars x.toList))) :=
    fixChapterSpace_eq_self _ (hasGlue_fixChapterSpace _)
  rw [h1, h2, h3, h4]

end LicensingAssistant
